import Mathlib

/-!
Shallow embedding of the `wanglibo/scheduler` repository
(`data_model.py`, `critical_path_analysis.py`, `heuristics.py`,
`main.py`, `scheduler.py`) and proofs about it.

Conventions of the embedding:
* Python `int` is modelled by `Int`; task ids by `Nat`.
* Python dicts are association lists (`List (Nat × _)`) kept in insertion
  order, so dict iteration order is the list order.  Python `set` values are
  `List Nat`; the source only tests sets for emptiness, discards elements,
  and takes `max`/`min` of generators over them, all of which are
  insensitive to element order and duplication.
* Fallible code returns `Except PyErr _`.  `cycleDetected` is the
  `ValueError('Dependency cycle detected in task graph')`, `emptyMaxArg`
  is the `ValueError` raised by `max()`/`min()` on an empty sequence, and
  `keyError` models a dict subscript of an absent key.  Lookups that are
  provably unreachable in error states (e.g. `self.timing[dep_id]` after a
  successful topological sort has certified that every dependency is a key)
  use a defaulted lookup, as noted at each site.
-/

namespace Sched

/-- Error kinds of the Python code.  The cycle error and the empty-sequence
error are both `ValueError`s in Python, with different messages. -/
inductive PyErr where
  | cycleDetected
  | emptyMaxArg
  | keyError
  deriving DecidableEq, Repr

/-- A task record (`data_model.Task`): `id`, `duration`, `dependencies`.
The display-only `name` field is omitted; the mutable `start_time` /
`resource_id` fields live on the schedule output type `STask`. -/
structure PTask where
  id : Nat
  duration : Int
  deps : List Nat
  deriving DecidableEq, Repr

/-- A dependency graph, as in `topological_sort`: a dict from task id to its
set of incoming dependency ids. -/
abbrev Graph := List (Nat × List Nat)

/-- Python `max(xs, default=d)`. -/
def pyMaxD (xs : List Int) (d : Int) : Int :=
  match xs with
  | [] => d
  | x :: rest => rest.foldl max x

/-- Python `min(xs, default=d)`. -/
def pyMinD (xs : List Int) (d : Int) : Int :=
  match xs with
  | [] => d
  | x :: rest => rest.foldl min x

/-- Python `min(xs, key=f)`: the first element attaining the minimal key
(`dflt` is returned on `[]`, where Python would raise; every use site
guards non-emptiness). -/
def pyMinByD {α : Type} (xs : List α) (f : α → Int) (dflt : α) : α :=
  match xs with
  | [] => dflt
  | x :: rest => rest.foldl (fun a y => if f y < f a then y else a) x

/-- Python `max(xs, key=f)`: the first element attaining the maximal key. -/
def pyMaxByD {α : Type} (xs : List α) (f : α → Int) (dflt : α) : α :=
  match xs with
  | [] => dflt
  | x :: rest => rest.foldl (fun a y => if f a < f y then y else a) x

/-- Strict lexicographic order on pairs of integers, as Python compares
2-tuples. -/
def lexLtB (p q : Int × Int) : Bool :=
  p.1 < q.1 || (p.1 == q.1 && p.2 < q.2)

/-- Python `min(xs, key=f)` for a 2-tuple key: first element with the
lexicographically minimal key. -/
def pyMinByLexD {α : Type} (xs : List α) (f : α → Int × Int) (dflt : α) : α :=
  match xs with
  | [] => dflt
  | x :: rest => rest.foldl (fun a y => if lexLtB (f y) (f a) then y else a) x

/-- Dict lookup: first entry with the given key (keys are unique in every
dict the source builds). -/
def alookup {α : Type} (l : List (Nat × α)) (k : Nat) : Option α :=
  match l.find? (fun e => e.1 == k) with
  | some e => some e.2
  | none => none

/-- Dict lookup with a default, Python `d.get(k, dflt)`. -/
def alookupD {α : Type} (l : List (Nat × α)) (k : Nat) (dflt : α) : α :=
  (alookup l k).getD dflt

/-- Dict update of an existing key (`d[k] = v` with `k` already a key). -/
def aset {α : Type} (l : List (Nat × α)) (k : Nat) (v : α) : List (Nat × α) :=
  l.map (fun e => if e.1 == k then (k, v) else e)

/-- Dict write `d[k] = v`: update the entry if present, else append (Python
dicts keep insertion order). -/
def aupsert {α : Type} (l : List (Nat × α)) (k : Nat) (v : α) : List (Nat × α) :=
  if l.any (fun e => e.1 == k) then aset l k v else l ++ [(k, v)]

/-! ## The ready-set dispatch loop

`topological_sort` (critical_path_analysis.py), `Scheduler.sequence_tasks`
(main.py), and the sequencing loops of `LongestFirstScheduler.schedule` and
`CriticalPathScheduler.schedule` (scheduler.py) are the same loop with
different choosers, so it is embedded once, parametrized by the chooser. -/

/-- The ready ids of the working graph, in dict iteration order:
`[task_id for task_id, deps in graph.items() if not deps]`. -/
def availableIds (g : Graph) : List Nat :=
  (g.filter (fun e => e.2.isEmpty)).map (fun e => e.1)

/-- `del graph[n]` followed by discarding `n` from every remaining
dependency set. -/
def removeTask (n : Nat) (g : Graph) : Graph :=
  (g.filter (fun e => !(e.1 == n))).map (fun e => (e.1, e.2.filter (fun d => !(d == n))))

/-- The body of the sequencing loop, structurally recursive on a fuel
argument so that the kernel can evaluate it; one unit of fuel is spent per
deleted graph entry, so `g.length` fuel always suffices (the zero-fuel
branch is unreachable, see `dispatchF_fuel_irrel`). -/
def dispatchF (choose : List Nat → Nat) : Nat → Graph → Except PyErr (List Nat)
  | _, [] => .ok []
  | 0, _ :: _ => .error .cycleDetected
  | fuel + 1, g@(_ :: _) =>
    let avail := availableIds g
    if avail.isEmpty then .error .cycleDetected
    else
      let n := choose avail
      if g.any (fun e => e.1 == n) then
        (dispatchF choose fuel (removeTask n g)).map (fun rest => n :: rest)
      else .error .keyError

/-- The sequencing loop: repeatedly pick a ready id with the supplied
chooser, emit it, delete it and discard it from the remaining dependency
sets; raise the cycle error when the non-empty graph has no ready id.
(`keyError` models `del graph[n]` for a chooser that returns a non-key;
every chooser in the source picks a member of the ready list.) -/
def dispatch (choose : List Nat → Nat) (g : Graph) : Except PyErr (List Nat) :=
  dispatchF choose g.length g


/-- `CriticalPathAnalysis.topological_sort`: the dispatch loop with the
plain chooser `next(iter(available_tasks))`, i.e. the first ready id. -/
def topologicalSort (g : Graph) : Except PyErr (List Nat) :=
  dispatch (fun avail => avail.headD 0) g

/-! ## Critical path analysis (`critical_path_analysis.py`) -/

/-- `TaskTiming`: earliest/latest start/finish, initialised to zero. -/
structure Timing where
  es : Int
  ef : Int
  ls : Int
  lf : Int
  deriving DecidableEq, Repr

/-- `TaskTiming.slack = latest_start - earliest_start`. -/
def Timing.slack (t : Timing) : Int := t.ls - t.es

/-- The zero `TaskTiming(0, 0, 0, 0)`. -/
def Timing.zero : Timing := ⟨0, 0, 0, 0⟩

/-- `TaskList.as_map()[i]`: the task with id `i`.  The default is
unreachable whenever `i` is a task id (Python raises `KeyError` there). -/
def taskMapD (tasks : List PTask) (i : Nat) : PTask :=
  match tasks.find? (fun t => t.id == i) with
  | some t => t
  | none => ⟨i, 0, []⟩

/-- The forward dependency graph `{task.id: task.dependencies.copy()}`. -/
def depGraph (tasks : List PTask) : Graph :=
  tasks.map (fun t => (t.id, t.deps))

/-- One step of the forward pass: set `earliest_start` to the latest
`earliest_finish` of the dependencies (default 0) and `earliest_finish`
to `earliest_start + duration`.  The defaulted timing lookup is unreachable
when every dependency is a task id, which the preceding successful
topological sort guarantees. -/
def forwardStep (tasks : List PTask) (g : Graph) (timing : List (Nat × Timing))
    (i : Nat) : List (Nat × Timing) :=
  let ds := alookupD g i []
  let es := pyMaxD (ds.map (fun d => (alookupD timing d Timing.zero).ef)) 0
  let ef := es + (taskMapD tasks i).duration
  let cur := alookupD timing i Timing.zero
  aset timing i { cur with es := es, ef := ef }

/-- The reversed ("successor") graph: start from `{task.id: set()}` and add
`task.id` to the set of each of its dependencies; a dependency that is not
a key raises `KeyError` (unreachable after a successful forward sort). -/
def buildReversed (tasks : List PTask) : Except PyErr Graph :=
  tasks.foldlM
    (fun acc t =>
      t.deps.foldlM
        (fun acc2 p =>
          if acc2.any (fun e => e.1 == p) then
            .ok (acc2.map (fun e => if e.1 == p then (e.1, e.2 ++ [t.id]) else e))
          else .error .keyError)
        acc)
    (tasks.map (fun t => (t.id, ([] : List Nat))))

/-- One step of the backward pass: `latest_finish` is the earliest
`latest_start` of the dependents (default `min_finish_time`) and
`latest_start = latest_finish - duration`. -/
def backwardStep (tasks : List PTask) (rev : Graph) (mf : Int)
    (timing : List (Nat × Timing)) (i : Nat) : List (Nat × Timing) :=
  let cs := alookupD rev i []
  let lf := pyMinD (cs.map (fun c => (alookupD timing c Timing.zero).ls)) mf
  let ls := lf - (taskMapD tasks i).duration
  let cur := alookupD timing i Timing.zero
  aset timing i { cur with ls := ls, lf := lf }

/-- The result of `CriticalPathAnalysis`: the per-task timing dict and
`min_finish_time`. -/
structure CPAResult where
  timing : List (Nat × Timing)
  minFinish : Int
  deriving DecidableEq, Repr

/-- `CriticalPathAnalysis(tasks)`: zeroed timings, forward topological sort
and forward pass, `min_finish_time` as the `max` of all earliest finishes
(raising on an empty collection), then the backward sort and pass over the
reversed graph. -/
def cpa (tasks : List PTask) : Except PyErr CPAResult := do
  let timing0 := tasks.map (fun t => (t.id, Timing.zero))
  let g := depGraph tasks
  let sorted ← topologicalSort g
  let timing1 := sorted.foldl (forwardStep tasks g) timing0
  if timing1.isEmpty then throw .emptyMaxArg
  else
    let mf := pyMaxD (timing1.map (fun e => e.2.ef)) 0
    let rev ← buildReversed tasks
    let bsorted ← topologicalSort rev
    let timing2 := bsorted.foldl (backwardStep tasks rev mf) timing1
    return ⟨timing2, mf⟩

/-- Timing lookup on an analysis result (`self.critical_path_analysis.timing[i]`);
the default is unreachable for task ids. -/
def timingD (c : CPAResult) (i : Nat) : Timing :=
  alookupD c.timing i Timing.zero

/-! ## Heuristics (`heuristics.py`) -/

/-- `PrioritizeNextLongest.next_task`: the ready id with the largest
duration (`max`, so first such id on ties). -/
def nextLongestChoose (tasks : List PTask) (ids : List Nat) : Nat :=
  pyMaxByD ids (fun i => (taskMapD tasks i).duration) 0

/-- `PrioritizeMinSlack.next_task`: the ready id with the least slack
(`min`, so first such id on ties). -/
def minSlackChoose (c : CPAResult) (ids : List Nat) : Nat :=
  pyMinByD ids (fun i => (timingD c i).slack) 0

/-- `SchedulingHeuristicType`. -/
inductive HeuristicType where
  | minSlack
  | nextLongest
  deriving DecidableEq, Repr

/-- `SchedulingHeuristicFactory.create`: `MIN_SLACK` builds a full
`CriticalPathAnalysis` (which can fail); `NEXT_LONGEST` does not. -/
def createHeuristic (tasks : List PTask) (h : HeuristicType) :
    Except PyErr (List Nat → Nat) :=
  match h with
  | .minSlack => (cpa tasks).map (fun c => minSlackChoose c)
  | .nextLongest => .ok (nextLongestChoose tasks)

/-! ## Resource assignment -/

/-- A task together with its schedule fields `start_time` / `resource_id`
(`None` until scheduled, as in `data_model.Task`). -/
structure STask where
  base : PTask
  start : Option Int
  resource : Option Nat
  deriving DecidableEq, Repr

/-- `Task.end_time = start_time + duration` when scheduled. -/
def STask.endTime (t : STask) : Option Int :=
  t.start.map (fun s => s + t.base.duration)

/-- The loop state of stage B: completion times dict, per-resource
next-available times, and the start/resource assignments made so far. -/
structure AssignState where
  completion : List (Nat × Int)
  avail : List Int
  assigned : List (Nat × (Int × Nat))
  deriving DecidableEq, Repr

/-- One iteration of the shared assignment loop of
`Scheduler.schedule_tasks` and `LongestFirstScheduler.schedule`:
`deps_completion_time` is the max of `completion_times.get(dep, 0)`;
the resource is `min(enumerate(resource_next_available), key=x[1])`
(first resource with the minimal next-available time; raises on an empty
pool); the task starts at the max of the two. -/
def assignStep (tasks : List PTask) (st : AssignState) (i : Nat) :
    Except PyErr AssignState :=
  let task := taskMapD tasks i
  let depsReady := pyMaxD (task.deps.map (fun d => alookupD st.completion d 0)) 0
  match st.avail.enum with
  | [] => .error .emptyMaxArg
  | p :: rest =>
    let best := rest.foldl (fun a y => if y.2 < a.2 then y else a) p
    let startT := max depsReady best.2
    let e := startT + task.duration
    .ok { completion := aupsert st.completion i e
          avail := st.avail.set best.1 e
          assigned := aupsert st.assigned i (startT, best.1) }

/-- Run the assignment loop over the dispatch sequence and write the
assignments back onto the task list (tasks never sequenced keep
`start_time = None`, as in Python). -/
def assignResources (tasks : List PTask) (seq : List Nat) (r : Nat) :
    Except PyErr (List STask) := do
  let st ← seq.foldlM (assignStep tasks) ⟨[], List.replicate r 0, []⟩
  return tasks.map (fun t =>
    match alookup st.assigned t.id with
    | some sr => ⟨t, some sr.1, some sr.2⟩
    | none => ⟨t, none, none⟩)

/-- `Scheduler.sequence_tasks`: the dispatch loop driven by a heuristic. -/
def sequenceTasks (tasks : List PTask) (choose : List Nat → Nat) :
    Except PyErr (List Nat) :=
  dispatch choose (depGraph tasks)

/-- `Scheduler(heuristic_type).schedule_tasks(tasks, resource_count)`. -/
def scheduleTasks (h : HeuristicType) (tasks : List PTask) (r : Nat) :
    Except PyErr (List STask) := do
  let choose ← createHeuristic tasks h
  let seq ← sequenceTasks tasks choose
  assignResources tasks seq r

/-- `LongestFirstScheduler.schedule`: its own sequencing loop picking
`max(available_tasks, key=duration)`, then the same assignment loop. -/
def longestFirstSchedule (tasks : List PTask) (r : Nat) :
    Except PyErr (List STask) := do
  let seq ← dispatch (nextLongestChoose tasks) (depGraph tasks)
  assignResources tasks seq r

/-! ## `CriticalPathScheduler.schedule` (scheduler.py) -/

/-- `min_slack_and_longest_duration`: the sequencing key
`(slack, -duration)`, minimised lexicographically. -/
def cpsChoose (c : CPAResult) (tasks : List PTask) (ids : List Nat) : Nat :=
  pyMinByLexD ids
    (fun i => ((timingD c i).slack, -(taskMapD tasks i).duration)) 0

/-- One iteration of `CriticalPathScheduler`'s assignment loop.  When some
resource is available by `deps_completion_time`, the task starts there and
`resource_id` is `min(enumerate(resource_candidates), key=deps - x[1])[0]`,
where `resource_candidates` is the dict of free resources; note that
`enumerate` of a dict yields `(position, key)` pairs, so the key function
reads the resource index, not its availability time, and `[0]` is the
position in the candidate list.  Otherwise the task is delayed to the first
resource with the minimal next-available time. -/
def cpsAssignStep (tasks : List PTask) (r : Nat) (st : AssignState) (i : Nat) :
    Except PyErr AssignState :=
  let task := taskMapD tasks i
  let depsReady := pyMaxD (task.deps.map (fun d => alookupD st.completion d 0)) 0
  match st.avail.enum with
  | [] => .error .emptyMaxArg
  | p :: rest =>
    let best := rest.foldl (fun a y => if y.2 < a.2 then y else a) p
    let sr :=
      if best.2 ≤ depsReady then
        let cands := (List.range r).filter (fun j => st.avail.getD j 0 ≤ depsReady)
        let pick := pyMinByD cands.enum (fun x => depsReady - (x.2 : Int)) (0, 0)
        (depsReady, pick.1)
      else (best.2, best.1)
    let e := sr.1 + task.duration
    .ok { completion := aupsert st.completion i e
          avail := st.avail.set sr.2 e
          assigned := aupsert st.assigned i sr }

/-- `CriticalPathScheduler.schedule`: a fresh `CriticalPathAnalysis`, the
sequencing loop with the `(slack, -duration)` key, then its own assignment
loop. -/
def cpsSchedule (tasks : List PTask) (r : Nat) : Except PyErr (List STask) := do
  let c ← cpa tasks
  let seq ← dispatch (cpsChoose c tasks) (depGraph tasks)
  let st ← seq.foldlM (cpsAssignStep tasks r) ⟨[], List.replicate r 0, []⟩
  return tasks.map (fun t =>
    match alookup st.assigned t.id with
    | some sr => ⟨t, some sr.1, some sr.2⟩
    | none => ⟨t, none, none⟩)

/-! ## Specification-level notions

The dependency relation of a graph, cycles, and the ordering properties the
spec talks about. -/

/-- `Edge g a b`: the graph records `a` as an incoming dependency of `b`
(`a` must finish before `b`). -/
def Edge (g : Graph) (a b : Nat) : Prop :=
  ∃ ds, (b, ds) ∈ g ∧ a ∈ ds

/-- A graph is acyclic when no id reaches itself through dependency
edges. -/
def Acyclic (g : Graph) : Prop :=
  ∀ i, ¬ Relation.TransGen (Edge g) i i

/-- Every recorded dependency id is itself an id of the graph. -/
def KnownDeps (g : Graph) : Prop :=
  ∀ e ∈ g, ∀ d ∈ e.2, d ∈ g.map (fun x => x.1)

instance knownDepsDecidable (g : Graph) : Decidable (KnownDeps g) :=
  inferInstanceAs
    (Decidable (∀ e ∈ g, ∀ d ∈ e.2, d ∈ g.map (fun x : Nat × List Nat => x.1)))

/-- The direct dependency relation of a task collection: `a` is listed
among the dependencies of the task with id `b`. -/
def TaskDep (tasks : List PTask) (a b : Nat) : Prop :=
  ∃ t ∈ tasks, t.id = b ∧ a ∈ t.deps

/-- A dependency chain through a task collection: a non-empty list of task
ids in which each element is a dependency of the next. -/
def IsChain (tasks : List PTask) (c : List Nat) : Prop :=
  c ≠ [] ∧ (∀ x ∈ c, x ∈ tasks.map (fun t => t.id)) ∧
    List.Chain' (fun a b => TaskDep tasks a b) c

/-- The duration-weighted length of a chain. -/
def chainWeight (tasks : List PTask) (c : List Nat) : Int :=
  (c.map (fun j => (taskMapD tasks j).duration)).sum

/-! ## Basic lemmas on the helper functions -/

theorem removeTask_length_lt {n : Nat} {g : Graph}
    (hk : g.any (fun e => e.1 == n) = true) :
    (removeTask n g).length < g.length := by
  simp only [removeTask, List.length_map]
  refine List.length_filter_lt_length_iff_exists.mpr ?_
  rcases List.any_eq_true.mp hk with ⟨e, he, hej⟩
  exact ⟨e, he, by simp [hej]⟩

theorem removeTask_length_le (n : Nat) (g : Graph) :
    (removeTask n g).length ≤ g.length := by
  simp only [removeTask, List.length_map]
  exact List.length_filter_le _ _

/-- The fuel argument of `dispatchF` is irrelevant as soon as it covers the
graph size. -/
theorem dispatchF_fuel_irrel (choose : List Nat → Nat) :
    ∀ f1 : Nat, ∀ g : Graph, ∀ f2 : Nat, g.length ≤ f1 → g.length ≤ f2 →
      dispatchF choose f1 g = dispatchF choose f2 g := by
  intro f1
  induction f1 with
  | zero =>
    intro g f2 h1 _
    have : g = [] := List.length_eq_zero.mp (Nat.le_zero.mp h1)
    subst this
    cases f2 <;> rfl
  | succ f1' ih =>
    intro g f2 h1 h2
    match g, f2 with
    | [], _ => simp [dispatchF]
    | _ :: _, 0 => simp at h2
    | x :: xs, f2' + 1 =>
      show dispatchF choose (f1' + 1) (x :: xs) = dispatchF choose (f2' + 1) (x :: xs)
      rw [dispatchF.eq_3, dispatchF.eq_3]
      by_cases hav : (availableIds (x :: xs)).isEmpty
      · simp [hav]
      · simp only [hav, Bool.false_eq_true, if_false]
        by_cases hk : (x :: xs).any (fun e => e.1 == choose (availableIds (x :: xs)))
        · simp only [hk, if_true]
          have hlt := removeTask_length_lt (g := x :: xs) hk
          have hle1 : (removeTask (choose (availableIds (x :: xs))) (x :: xs)).length ≤ f1' := by
            simp only [List.length_cons] at h1 hlt
            omega
          have hle2 : (removeTask (choose (availableIds (x :: xs))) (x :: xs)).length ≤ f2' := by
            simp only [List.length_cons] at h2 hlt
            omega
          rw [ih _ _ hle1 hle2]
        · simp [hk]

/-- The one-step unfolding of the sequencing loop. -/
theorem dispatch_eq (choose : List Nat → Nat) (g : Graph) :
    dispatch choose g =
      match g with
      | [] => .ok []
      | _ :: _ =>
        if (availableIds g).isEmpty then .error .cycleDetected
        else
          if g.any (fun e => e.1 == choose (availableIds g)) then
            (dispatch choose (removeTask (choose (availableIds g)) g)).map
              (fun rest => choose (availableIds g) :: rest)
          else .error .keyError := by
  match g with
  | [] => rfl
  | x :: xs =>
    show dispatchF choose (xs.length + 1) (x :: xs) = _
    rw [dispatchF.eq_3]
    by_cases hav : (availableIds (x :: xs)).isEmpty
    · simp [hav]
    · simp only [hav, Bool.false_eq_true, if_false]
      by_cases hk : (x :: xs).any (fun e => e.1 == choose (availableIds (x :: xs)))
      · simp only [hk, if_true]
        have := removeTask_length_lt (g := x :: xs) hk
        rw [dispatch, dispatchF_fuel_irrel choose xs.length _ _
          (by simp only [List.length_cons] at this; omega) le_rfl]
      · simp [hk]

/-- A fold whose step always returns one of its two arguments produces the
seed or a list element. -/
theorem foldl_pick_mem {α : Type} (f : α → α → α)
    (hf : ∀ a y, f a y = a ∨ f a y = y) (l : List α) (x : α) :
    l.foldl f x = x ∨ l.foldl f x ∈ l := by
  induction l generalizing x with
  | nil => exact Or.inl rfl
  | cons y ys ih =>
    simp only [List.foldl_cons]
    rcases ih (f x y) with h | h
    · rw [h]
      rcases hf x y with h2 | h2
      · exact Or.inl h2
      · rw [h2]; exact Or.inr (List.mem_cons_self y ys)
    · exact Or.inr (List.mem_cons_of_mem _ h)

theorem pyMaxByD_mem {α : Type} (xs : List α) (f : α → Int) (d : α)
    (h : xs ≠ []) : pyMaxByD xs f d ∈ xs := by
  match xs with
  | [] => exact absurd rfl h
  | x :: rest =>
    simp only [pyMaxByD]
    rcases foldl_pick_mem (fun a y => if f a < f y then y else a)
      (fun a y => by by_cases hc : f a < f y <;> simp [hc]) rest x with h1 | h1
    · rw [h1]; exact List.mem_cons_self _ _
    · exact List.mem_cons_of_mem _ h1

theorem pyMinByD_mem {α : Type} (xs : List α) (f : α → Int) (d : α)
    (h : xs ≠ []) : pyMinByD xs f d ∈ xs := by
  match xs with
  | [] => exact absurd rfl h
  | x :: rest =>
    simp only [pyMinByD]
    rcases foldl_pick_mem (fun a y => if f y < f a then y else a)
      (fun a y => by by_cases hc : f y < f a <;> simp [hc]) rest x with h1 | h1
    · rw [h1]; exact List.mem_cons_self _ _
    · exact List.mem_cons_of_mem _ h1

theorem pyMinByLexD_mem {α : Type} (xs : List α) (f : α → Int × Int) (d : α)
    (h : xs ≠ []) : pyMinByLexD xs f d ∈ xs := by
  match xs with
  | [] => exact absurd rfl h
  | x :: rest =>
    simp only [pyMinByLexD]
    rcases foldl_pick_mem (fun a y => if lexLtB (f y) (f a) then y else a)
      (fun a y => by by_cases hc : lexLtB (f y) (f a) <;> simp [hc]) rest x with h1 | h1
    · rw [h1]; exact List.mem_cons_self _ _
    · exact List.mem_cons_of_mem _ h1

theorem foldl_max_le_self : ∀ (rest : List Int) (x : Int), x ≤ rest.foldl max x
  | [], _ => le_refl _
  | y :: ys, x => le_trans (le_max_left x y) (foldl_max_le_self ys (max x y))

theorem foldl_max_le_mem :
    ∀ (rest : List Int) (x y : Int), y ∈ rest → y ≤ rest.foldl max x
  | y' :: ys, x, y, h => by
    rcases List.mem_cons.mp h with h1 | h1
    · subst h1
      exact le_trans (le_max_right x y) (foldl_max_le_self ys _)
    · exact foldl_max_le_mem ys (max x y') y h1

theorem foldl_min_self_le : ∀ (rest : List Int) (x : Int), rest.foldl min x ≤ x
  | [], _ => le_refl _
  | y :: ys, x => le_trans (foldl_min_self_le ys (min x y)) (min_le_left x y)

theorem foldl_min_le_mem :
    ∀ (rest : List Int) (x y : Int), y ∈ rest → rest.foldl min x ≤ y
  | y' :: ys, x, y, h => by
    rcases List.mem_cons.mp h with h1 | h1
    · subst h1
      exact le_trans (foldl_min_self_le ys _) (min_le_right x y)
    · exact foldl_min_le_mem ys (min x y') y h1

/-- Every element of a non-empty list is at most its Python `max`. -/
theorem le_pyMaxD {xs : List Int} {y : Int} (hy : y ∈ xs) (d : Int) :
    y ≤ pyMaxD xs d := by
  match xs with
  | [] => simp at hy
  | x :: rest =>
    simp only [pyMaxD]
    rcases List.mem_cons.mp hy with h | h
    · exact h ▸ foldl_max_le_self rest x
    · exact foldl_max_le_mem rest x y h

/-- The Python `max` of a non-empty list is one of its elements. -/
theorem pyMaxD_mem {xs : List Int} (h : xs ≠ []) (d : Int) :
    pyMaxD xs d ∈ xs := by
  match xs with
  | [] => exact absurd rfl h
  | x :: rest =>
    simp only [pyMaxD]
    rcases foldl_pick_mem max max_choice rest x with h1 | h1
    · rw [h1]; exact List.mem_cons_self _ _
    · exact List.mem_cons_of_mem _ h1

theorem pyMinD_le {xs : List Int} {y : Int} (hy : y ∈ xs) (d : Int) :
    pyMinD xs d ≤ y := by
  match xs with
  | [] => simp at hy
  | x :: rest =>
    simp only [pyMinD]
    rcases List.mem_cons.mp hy with h | h
    · exact h ▸ foldl_min_self_le rest x
    · exact foldl_min_le_mem rest x y h

theorem pyMinD_mem {xs : List Int} (h : xs ≠ []) (d : Int) :
    pyMinD xs d ∈ xs := by
  match xs with
  | [] => exact absurd rfl h
  | x :: rest =>
    simp only [pyMinD]
    rcases foldl_pick_mem min min_choice rest x with h1 | h1
    · rw [h1]; exact List.mem_cons_self _ _
    · exact List.mem_cons_of_mem _ h1


/-! ## Lemmas about the dispatch loop -/

theorem key_unique {α : Type} :
    ∀ {g : List (Nat × α)}, (g.map (fun x => x.1)).Nodup →
      ∀ {k : Nat} {v1 v2 : α}, (k, v1) ∈ g → (k, v2) ∈ g → v1 = v2 := by
  intro g
  induction g with
  | nil => intro _ k v1 v2 h1 _; simp at h1
  | cons e g ih =>
    intro hnd k v1 v2 h1 h2
    simp only [List.map_cons, List.nodup_cons] at hnd
    rcases List.mem_cons.mp h1 with h1 | h1 <;> rcases List.mem_cons.mp h2 with h2 | h2
    · rw [← h1] at h2
      exact ((Prod.ext_iff.mp h2).2).symm
    · exfalso
      exact hnd.1 (by rw [← h1]; exact List.mem_map_of_mem (fun x => x.1) h2)
    · exfalso
      exact hnd.1 (by rw [← h2]; exact List.mem_map_of_mem (fun x => x.1) h1)
    · exact ih hnd.2 h1 h2

theorem mem_availableIds {g : Graph} {a : Nat} :
    a ∈ availableIds g ↔ (a, ([] : List Nat)) ∈ g := by
  simp only [availableIds, List.mem_map, List.mem_filter]
  constructor
  · rintro ⟨e, ⟨he, hehd⟩, rfl⟩
    have : e.2 = [] := List.isEmpty_iff.mp hehd
    have he2 : e = (e.1, ([] : List Nat)) := by
      cases e; simp_all
    rw [← he2]; exact he
  · intro h
    exact ⟨(a, []), ⟨h, rfl⟩, rfl⟩

theorem mem_removeTask {n : Nat} {g : Graph} {e : Nat × List Nat} :
    e ∈ removeTask n g ↔
      ∃ ds, (e.1, ds) ∈ g ∧ ¬ e.1 = n ∧ e.2 = ds.filter (fun d => !(d == n)) := by
  simp only [removeTask, List.mem_map, List.mem_filter]
  constructor
  · rintro ⟨x, ⟨hx, hxn⟩, rfl⟩
    refine ⟨x.2, by simpa using hx, by simpa using hxn, rfl⟩
  · rintro ⟨ds, hds, hne, hval⟩
    refine ⟨(e.1, ds), ⟨hds, by simpa using hne⟩, ?_⟩
    cases e; simp_all

theorem removeTask_keys (n : Nat) (g : Graph) :
    (removeTask n g).map (fun x => x.1) =
      (g.map (fun x => x.1)).filter (fun k => !(k == n)) := by
  induction g with
  | nil => rfl
  | cons e g ih =>
    by_cases h : e.1 == n <;>
      simp_all [removeTask, List.filter_cons]

theorem removeTask_keys_nodup {n : Nat} {g : Graph}
    (h : (g.map (fun x => x.1)).Nodup) :
    ((removeTask n g).map (fun x => x.1)).Nodup := by
  rw [removeTask_keys]; exact h.filter _

theorem except_map_ok {α β : Type} {f : α → β} {x : Except PyErr α} {b : β}
    (h : x.map f = .ok b) : ∃ a, x = .ok a ∧ b = f a := by
  cases x with
  | ok a => exact ⟨a, rfl, by simpa [Except.map] using h.symm⟩
  | error e => simp [Except.map] at h

theorem except_map_error {α β : Type} {f : α → β} {x : Except PyErr α} {e : PyErr} :
    x.map f = .error e ↔ x = .error e := by
  cases x <;> simp [Except.map]

/-- Strong induction on the size of the working graph. -/
theorem graph_strong_induction {P : Graph → Prop}
    (step : ∀ g : Graph, (∀ g' : Graph, g'.length < g.length → P g') → P g) :
    ∀ g, P g := by
  have H : ∀ n : Nat, ∀ g : Graph, g.length = n → P g := by
    intro n
    induction n using Nat.strong_induction_on with
    | _ n ih =>
      intro g hg
      exact step g (fun g' hlt => ih g'.length (hg ▸ hlt) g' rfl)
  exact fun g => H g.length g rfl

/-- A dependency id that is not a key of the graph makes the dispatch loop
raise the cycle error: its owner can never become ready. -/
theorem dispatch_missing_dep (choose : List Nat → Nat)
    (hch : ∀ l : List Nat, l ≠ [] → choose l ∈ l) :
    ∀ g : Graph, (g.map (fun x => x.1)).Nodup →
      (∃ e ∈ g, ∃ d ∈ e.2, d ∉ g.map (fun x => x.1)) →
      dispatch choose g = .error .cycleDetected := by
  refine graph_strong_induction (fun g ih => ?_) 
  intro hnd ⟨e, he, d, hd, hdk⟩
  rw [dispatch_eq]
  match g, he, hnd, hdk, ih with
  | x :: xs, he, hnd, hdk, ih =>
    by_cases hav : (availableIds (x :: xs)).isEmpty
    · simp [hav]
    · simp only [hav, Bool.false_eq_true, if_false]
      set g := x :: xs with hg
      have havne : availableIds g ≠ [] := fun hc => hav (by simp [hc])
      have hnmem : choose (availableIds g) ∈ availableIds g := hch _ havne
      set m := choose (availableIds g) with hm
      have hment : (m, ([] : List Nat)) ∈ g := mem_availableIds.mp hnmem
      have hk : g.any (fun e => e.1 == m) = true := by
        refine List.any_eq_true.mpr ⟨(m, []), hment, by simp⟩
      simp only [hk, if_true]
      rw [except_map_error]
      have hem : ¬ e.1 = m := by
        intro hcon
        have he' : (m, e.2) ∈ g := by
          rw [← hcon]; exact he
        have : e.2 = [] := key_unique hnd he' hment
        rw [this] at hd; simp at hd
      refine ih _ (removeTask_length_lt hk)
        (removeTask_keys_nodup hnd) ?_
      refine ⟨(e.1, e.2.filter (fun d => !(d == m))), ?_, d, ?_, ?_⟩
      · exact mem_removeTask.mpr ⟨e.2, by simpa using he, hem, rfl⟩
      · simp only [List.mem_filter]
        refine ⟨hd, ?_⟩
        have hdm : ¬ d = m := by
          intro hcon
          exact hdk (hcon ▸ List.mem_map_of_mem (fun x => x.1) hment)
        simpa using hdm
      · rw [removeTask_keys]
        intro hcon
        exact hdk (List.mem_of_mem_filter hcon)

/-- Any non-empty finite set in which every element has an in-set
predecessor contains an element lying on a cycle. -/
theorem exists_transGen_self_of_preds {e : Nat → Nat → Prop} :
    ∀ (s : Finset Nat), s.Nonempty → (∀ b ∈ s, ∃ a ∈ s, e a b) →
      ∃ x ∈ s, Relation.TransGen e x x := by
  classical
  have H : ∀ n : Nat, ∀ s : Finset Nat, s.card = n → s.Nonempty →
      (∀ b ∈ s, ∃ a ∈ s, e a b) → ∃ x ∈ s, Relation.TransGen e x x := by
    intro n
    induction n using Nat.strong_induction_on with
    | _ n ih =>
    intro s hc hne hpred
    subst hc
    rcases hne with ⟨b, hb⟩
    rcases hpred b hb with ⟨a, ha, hab⟩
    by_cases hcyc : Relation.TransGen e b b
    · exact ⟨b, hb, hcyc⟩
    · set s' : Finset Nat := s.filter (fun x => Relation.TransGen e x b) with hs'
      have hsub : s' ⊆ s := Finset.filter_subset _ _
      have has' : a ∈ s' := by
        rw [hs', Finset.mem_filter]
        exact ⟨ha, Relation.TransGen.single hab⟩
      have hbs' : b ∉ s' := by
        rw [hs', Finset.mem_filter]
        rintro ⟨-, hcon⟩; exact hcyc hcon
      have hlt : s'.card < s.card := by
        refine Finset.card_lt_card ?_
        rw [Finset.ssubset_iff_of_subset hsub]
        exact ⟨b, hb, hbs'⟩
      have hpred' : ∀ y ∈ s', ∃ x ∈ s', e x y := by
        intro y hy
        have hy2 := Finset.mem_filter.mp (hs' ▸ hy)
        rcases hpred y hy2.1 with ⟨x, hx, hxy⟩
        refine ⟨x, ?_, hxy⟩
        rw [hs', Finset.mem_filter]
        exact ⟨hx, Relation.TransGen.head hxy hy2.2⟩
      rcases ih s'.card hlt s' rfl ⟨a, has'⟩ hpred' with ⟨x, hx, hxx⟩
      exact ⟨x, hsub hx, hxx⟩
  exact fun s => H s.card s rfl

/-- In a non-empty acyclic graph whose dependencies are all keys, some
entry is ready. -/
theorem acyclic_progress {g : Graph} (hne : g ≠ []) (hknown : KnownDeps g)
    (hacyc : Acyclic g) : ¬ (availableIds g).isEmpty = true := by
  classical
  intro hav
  have hnoav : ∀ e ∈ g, e.2 ≠ [] := by
    intro e he hc
    have : e.1 ∈ availableIds g := mem_availableIds.mpr (by
      have : e = (e.1, ([] : List Nat)) := by cases e; simp_all
      rw [← this]; exact he)
    rw [List.isEmpty_iff.mp hav] at this
    simp at this
  have hkeysne : (g.map (fun x => x.1)).toFinset.Nonempty := by
    match g, hne with
    | x :: xs, _ => exact ⟨x.1, by simp⟩
  have hpred : ∀ b ∈ (g.map (fun x => x.1)).toFinset,
      ∃ a ∈ (g.map (fun x => x.1)).toFinset, Edge g a b := by
    intro b hb
    rcases List.mem_map.mp (List.mem_toFinset.mp hb) with ⟨e, he, rfl⟩
    match hd : e.2, hnoav e he with
    | d :: ds, _ =>
      refine ⟨d, ?_, ⟨e.2, by (cases e; simpa using he), by rw [hd]; simp⟩⟩
      rw [List.mem_toFinset]
      exact hknown e he d (by rw [hd]; simp)
  rcases exists_transGen_self_of_preds _ hkeysne hpred with ⟨x, _, hxx⟩
  exact hacyc x hxx

theorem edge_removeTask {n : Nat} {g : Graph} {a b : Nat}
    (h : Edge (removeTask n g) a b) : Edge g a b := by
  rcases h with ⟨ds, hds, ha⟩
  rcases mem_removeTask.mp hds with ⟨ds0, hds0, _, hval⟩
  have hval' : ds = ds0.filter (fun d => !(d == n)) := by simpa using hval
  rw [hval'] at ha
  exact ⟨ds0, by simpa using hds0, List.mem_of_mem_filter ha⟩

theorem acyclic_removeTask {n : Nat} {g : Graph} (h : Acyclic g) :
    Acyclic (removeTask n g) := by
  intro i hcon
  exact h i (Relation.TransGen.mono (fun _ _ => edge_removeTask) hcon)

theorem knownDeps_removeTask {n : Nat} {g : Graph} (h : KnownDeps g) :
    KnownDeps (removeTask n g) := by
  intro e he d hd
  rcases mem_removeTask.mp he with ⟨ds0, hds0, hne, hval⟩
  rw [hval] at hd
  have hd0 : d ∈ ds0 := List.mem_of_mem_filter hd
  have hdn : (d == n) = false := by
    have := List.of_mem_filter hd
    simpa using this
  rw [removeTask_keys]
  refine List.mem_filter.mpr ⟨h (e.1, ds0) hds0 d hd0, by simpa using hdn⟩

/-- On an acyclic graph with known dependencies and distinct keys, the
dispatch loop succeeds (no cycle error, no key error). -/
theorem dispatch_ok_of_acyclic (choose : List Nat → Nat)
    (hch : ∀ l : List Nat, l ≠ [] → choose l ∈ l) :
    ∀ g : Graph, (g.map (fun x => x.1)).Nodup → KnownDeps g → Acyclic g →
      ∃ l, dispatch choose g = .ok l := by
  refine graph_strong_induction (fun g ih => ?_)
  intro hnd hknown hacyc
  rw [dispatch_eq]
  match g with
  | [] => exact ⟨[], rfl⟩
  | x :: xs =>
    have hav := acyclic_progress (g := x :: xs) (by simp) hknown hacyc
    simp only [hav, Bool.false_eq_true, if_false]
    set g := x :: xs with hg
    have havne : availableIds g ≠ [] := fun hc => hav (by simp [hc])
    have hnmem : choose (availableIds g) ∈ availableIds g := hch _ havne
    set m := choose (availableIds g) with hm
    have hment : (m, ([] : List Nat)) ∈ g := mem_availableIds.mp hnmem
    have hk : g.any (fun e => e.1 == m) = true :=
      List.any_eq_true.mpr ⟨(m, []), hment, by simp⟩
    simp only [hk, if_true]
    rcases ih _ (removeTask_length_lt hk)
      (removeTask_keys_nodup hnd) (knownDeps_removeTask hknown)
      (acyclic_removeTask hacyc) with ⟨l, hl⟩
    exact ⟨m :: l, by rw [hl]; rfl⟩

/-- The emitted sequence is a permutation of the graph keys. -/
theorem dispatch_perm (choose : List Nat → Nat) :
    ∀ g : Graph, (g.map (fun x => x.1)).Nodup → ∀ l, dispatch choose g = .ok l →
      l.Perm (g.map (fun x => x.1)) := by
  refine graph_strong_induction (fun g ih => ?_)
  intro hnd l hok
  rw [dispatch_eq] at hok
  match g, hnd, hok, ih with
  | [], _, hok, _ =>
    have : l = [] := by simpa using hok.symm
    simp [this]
  | x :: xs, hnd, hok, ih =>
    by_cases hav : (availableIds (x :: xs)).isEmpty
    · simp [hav] at hok
    · simp only [hav, Bool.false_eq_true, if_false] at hok
      by_cases hk : (x :: xs).any (fun e => e.1 == choose (availableIds (x :: xs)))
      · simp only [hk, if_true] at hok
        rcases except_map_ok hok with ⟨rest, hrest, hl⟩
        have hperm := ih _ (removeTask_length_lt hk) (removeTask_keys_nodup hnd) rest hrest
        set m := choose (availableIds (x :: xs)) with hm
        have hmk : m ∈ (x :: xs).map (fun e => e.1) := by
          rcases List.any_eq_true.mp hk with ⟨e, he, hej⟩
          have he1 : e.1 = m := by simpa using hej
          exact he1 ▸ List.mem_map_of_mem (fun e => e.1) he
        rw [hl]
        have h1 : rest.Perm (((x :: xs).map (fun e => e.1)).filter (fun k => !(k == m))) := by
          rw [← removeTask_keys]; exact hperm
        have hfe : ((x :: xs).map (fun e => e.1)).filter (fun k => !(k == m)) =
            ((x :: xs).map (fun e => e.1)).erase m := by
          rw [List.Nodup.erase_eq_filter hnd]
          refine (List.filter_congr ?_).symm
          intro k _
          rfl
        rw [hfe] at h1
        exact ((h1.cons m).trans (List.perm_cons_erase hmk).symm)
      · simp [hk] at hok

/-- Along a successfully emitted sequence, an earlier id never lists a
later id among its dependencies (for a chooser that picks ready ids, as
all the heuristics do). -/
theorem dispatch_pairwise (choose : List Nat → Nat)
    (hch : ∀ l : List Nat, l ≠ [] → choose l ∈ l) :
    ∀ g : Graph, (g.map (fun x => x.1)).Nodup → ∀ l, dispatch choose g = .ok l →
      l.Pairwise (fun a b => ∀ ds, (a, ds) ∈ g → b ∉ ds) := by
  refine graph_strong_induction (fun g ih => ?_)
  intro hnd l hok
  rw [dispatch_eq] at hok
  match g, hnd, hok, ih with
  | [], _, hok, _ =>
    have : l = [] := by simpa using hok.symm
    simp [this]
  | x :: xs, hnd, hok, ih =>
    by_cases hav : (availableIds (x :: xs)).isEmpty
    · simp [hav] at hok
    · simp only [hav, Bool.false_eq_true, if_false] at hok
      by_cases hk : (x :: xs).any (fun e => e.1 == choose (availableIds (x :: xs)))
      · simp only [hk, if_true] at hok
        rcases except_map_ok hok with ⟨rest, hrest, hl⟩
        have havne : availableIds (x :: xs) ≠ [] := fun hc => hav (by simp [hc])
        set m := choose (availableIds (x :: xs)) with hm
        have hment : (m, ([] : List Nat)) ∈ x :: xs :=
          mem_availableIds.mp (hch _ havne)
        have hrestperm := dispatch_perm choose _ (removeTask_keys_nodup hnd) rest hrest
        have hrestne : ∀ b ∈ rest, ¬ b = m := by
          intro b hb hcon
          have hbk := hrestperm.mem_iff.mp hb
          rw [removeTask_keys] at hbk
          rcases List.mem_filter.mp hbk with ⟨-, hb2⟩
          rw [hcon] at hb2; simp at hb2
        rw [hl]
        refine List.pairwise_cons.mpr ⟨?_, ?_⟩
        · intro b hb ds hds
          have : ds = [] := key_unique hnd hds hment
          rw [this]; simp
        · have hpw := ih _ (removeTask_length_lt hk) (removeTask_keys_nodup hnd)
            rest hrest
          refine List.Pairwise.imp_of_mem ?_ hpw
          intro a b ha hb hR ds hds hmem
          have hanem : ¬ a = m := hrestne a ha
          have hbnem : ¬ b = m := hrestne b hb
          have hds2 : (a, ds.filter (fun d => !(d == m))) ∈ removeTask m (x :: xs) := by
            refine mem_removeTask.mpr ⟨ds, by simpa using hds, by simpa using hanem, rfl⟩
          refine hR _ hds2 ?_
          refine List.mem_filter.mpr ⟨hmem, by simpa using hbnem⟩
      · simp [hk] at hok

/-- Dependencies are emitted strictly before their dependents. -/
theorem dispatch_indexOf (choose : List Nat → Nat)
    (hch : ∀ l : List Nat, l ≠ [] → choose l ∈ l) :
    ∀ g : Graph, (g.map (fun x => x.1)).Nodup → ∀ l, dispatch choose g = .ok l →
      ∀ b ds, (b, ds) ∈ g → ∀ a ∈ ds, l.indexOf a < l.indexOf b := by
  refine graph_strong_induction (fun g ih => ?_)
  intro hnd l hok
  rw [dispatch_eq] at hok
  match g, hnd, hok, ih with
  | [], _, hok, _ => intro b ds hds; simp at hds
  | x :: xs, hnd, hok, ih =>
    by_cases hav : (availableIds (x :: xs)).isEmpty
    · simp [hav] at hok
    · simp only [hav, Bool.false_eq_true, if_false] at hok
      by_cases hk : (x :: xs).any (fun e => e.1 == choose (availableIds (x :: xs)))
      · simp only [hk, if_true] at hok
        rcases except_map_ok hok with ⟨rest, hrest, hl⟩
        have havne : availableIds (x :: xs) ≠ [] := fun hc => hav (by simp [hc])
        set m := choose (availableIds (x :: xs)) with hm
        have hment : (m, ([] : List Nat)) ∈ x :: xs :=
          mem_availableIds.mp (hch _ havne)
        intro b ds hds a ha
        rw [hl]
        by_cases hbm : b = m
        · exfalso
          have : ds = [] := key_unique hnd (hbm ▸ hds) hment
          rw [this] at ha; simp at ha
        · by_cases ham : a = m
          · subst ham
            rw [List.indexOf_cons_self]
            have : (m :: rest).indexOf b = rest.indexOf b + 1 := by
              rw [List.indexOf_cons_ne _ (fun hc => hbm hc.symm)]
            omega
          · have hds2 : (b, ds.filter (fun d => !(d == m))) ∈ removeTask m (x :: xs) := by
              refine mem_removeTask.mpr ⟨ds, by simpa using hds, by simpa using hbm, rfl⟩
            have ha2 : a ∈ ds.filter (fun d => !(d == m)) :=
              List.mem_filter.mpr ⟨ha, by simpa using ham⟩
            have := ih _ (removeTask_length_lt hk) (removeTask_keys_nodup hnd)
              rest hrest b _ hds2 a ha2
            rw [List.indexOf_cons_ne _ (fun hc => ham hc.symm),
                List.indexOf_cons_ne _ (fun hc => hbm hc.symm)]
            omega
      · simp [hk] at hok

/-! ## The step-by-step view of the sequencing loop (for the
cycle-error characterisation) -/

/-- One iteration of the sequencing loop: delete the chosen ready id, or
leave the graph unchanged when it is empty or has no ready id. -/
def seqStep (choose : List Nat → Nat) (g : Graph) : Graph :=
  match g with
  | [] => []
  | _ :: _ =>
    if (availableIds g).isEmpty then g
    else removeTask (choose (availableIds g)) g

/-- The working graph after `n` iterations of the sequencing loop. -/
def seqIter (choose : List Nat → Nat) : Nat → Graph → Graph
  | 0, g => g
  | n + 1, g => seqIter choose n (seqStep choose g)

theorem seqIter_nil (choose : List Nat → Nat) : ∀ n, seqIter choose n [] = []
  | 0 => rfl
  | n + 1 => seqIter_nil choose n

/-- The dispatch loop raises the cycle error exactly when some reachable
working graph is non-empty yet has no ready id. -/
theorem dispatch_cycle_iff (choose : List Nat → Nat)
    (hch : ∀ l : List Nat, l ≠ [] → choose l ∈ l) :
    ∀ g : Graph,
      (dispatch choose g = .error .cycleDetected ↔
        ∃ n, seqIter choose n g ≠ [] ∧ availableIds (seqIter choose n g) = []) := by
  refine graph_strong_induction (fun g ih => ?_)
  rw [dispatch_eq]
  match g, ih with
  | [], _ =>
    constructor
    · intro hok; simp at hok
    · rintro ⟨n, hne, -⟩
      exact absurd (seqIter_nil choose n) hne
  | x :: xs, ih =>
    by_cases hav : (availableIds (x :: xs)).isEmpty
    · simp only [hav, if_true]
      constructor
      · intro _
        exact ⟨0, by simp [seqIter], List.isEmpty_iff.mp hav⟩
      · intro _
        simp
    · simp only [hav, Bool.false_eq_true, if_false]
      have havne : availableIds (x :: xs) ≠ [] := fun hc => hav (by simp [hc])
      set m := choose (availableIds (x :: xs)) with hm
      have hment : (m, ([] : List Nat)) ∈ x :: xs :=
        mem_availableIds.mp (hch _ havne)
      have hk : (x :: xs).any (fun e => e.1 == m) = true :=
        List.any_eq_true.mpr ⟨(m, []), hment, by simp⟩
      simp only [hk, if_true]
      rw [except_map_error]
      have hstep : seqStep choose (x :: xs) = removeTask m (x :: xs) := by
        simp [seqStep, hav]
      rw [ih _ (removeTask_length_lt hk)]
      constructor
      · rintro ⟨n, hn⟩
        refine ⟨n + 1, ?_, ?_⟩
        · show seqIter choose n (seqStep choose (x :: xs)) ≠ []
          rw [hstep]; exact hn.1
        · show availableIds (seqIter choose n (seqStep choose (x :: xs))) = []
          rw [hstep]; exact hn.2
      · rintro ⟨n, hn⟩
        match n, hn with
        | 0, hn =>
          exfalso
          exact hav (by simpa [seqIter] using List.isEmpty_iff.mpr hn.2)
        | n + 1, hn =>
          have h2 : seqIter choose (n + 1) (x :: xs)
              = seqIter choose n (removeTask m (x :: xs)) := by
            show seqIter choose n (seqStep choose (x :: xs)) = _
            rw [hstep]
          refine ⟨n, ?_, ?_⟩
          · rw [← h2]; exact hn.1
          · rw [← h2]; exact hn.2

/-! ## The concrete choosers pick members of the ready list -/

theorem headD_mem : ∀ l : List Nat, l ≠ [] → l.headD 0 ∈ l
  | [], h => absurd rfl h
  | x :: xs, _ => by simp

theorem nextLongestChoose_mem (tasks : List PTask) :
    ∀ l : List Nat, l ≠ [] → nextLongestChoose tasks l ∈ l := by
  intro l hl
  exact pyMaxByD_mem l _ 0 hl

theorem minSlackChoose_mem (c : CPAResult) :
    ∀ l : List Nat, l ≠ [] → minSlackChoose c l ∈ l := by
  intro l hl
  exact pyMinByD_mem l _ 0 hl

theorem cpsChoose_mem (c : CPAResult) (tasks : List PTask) :
    ∀ l : List Nat, l ≠ [] → cpsChoose c tasks l ∈ l := by
  intro l hl
  exact pyMinByLexD_mem l _ 0 hl

/-! ## Sufficient conditions for acyclicity (used to discharge the
acyclicity hypotheses at concrete inputs) -/

theorem acyclic_of_rank (g : Graph) (rk : Nat → Nat)
    (h : ∀ a b, Edge g a b → rk a < rk b) : Acyclic g := by
  intro i hcon
  have hmono : ∀ a b, Relation.TransGen (Edge g) a b → rk a < rk b := by
    intro a b hab
    induction hab with
    | single h1 => exact h _ _ h1
    | tail _ h2 ih => exact lt_trans ih (h _ _ h2)
  exact lt_irrefl _ (hmono i i hcon)

/-- A graph in which every dependency id is smaller than its owner is
acyclic (decidable premise, usable with `decide` at concrete graphs). -/
theorem acyclic_of_lt (g : Graph)
    (h : ∀ e ∈ g, ∀ d ∈ e.2, d < e.1) : Acyclic g := by
  refine acyclic_of_rank g (fun i => i) ?_
  rintro a b ⟨ds, hds, ha⟩
  exact h (b, ds) hds a ha

/-! ## Concrete inputs used by the claims -/

/-- The sample project of `main.py` (`SAMPLE_TASKS`), with T1..T5 as
ids 1..5. -/
def sample5 : List PTask :=
  [⟨1, 3, []⟩, ⟨2, 2, []⟩, ⟨3, 4, [1, 2]⟩, ⟨4, 2, [3]⟩, ⟨5, 1, [3]⟩]

/-- Four tasks on two resources for which `CriticalPathScheduler` produces
an overlapping schedule. -/
def cpsOverlapTasks : List PTask :=
  [⟨1, 2, []⟩, ⟨2, 1, []⟩, ⟨3, 2, [2]⟩, ⟨4, 1, [1]⟩]

/-- Four tasks on two resources for which `CriticalPathScheduler` picks a
free resource that is not the one closest to `deps_completion_time`. -/
def cpsClosestTasks : List PTask :=
  [⟨1, 3, []⟩, ⟨2, 5, []⟩, ⟨3, 6, []⟩, ⟨4, 2, [1]⟩]

/-- The assignment-loop state of `CriticalPathScheduler` on
`cpsClosestTasks` after the first three tasks of its sequence. -/
def cpsClosestState : AssignState :=
  ⟨[(3, 6), (2, 5), (1, 8)], [8, 6], [(3, (0, 1)), (2, (0, 0)), (1, (5, 0))]⟩

/-! ## The claims -/

/-- C9: `LongestFirstScheduler.schedule` and
`Scheduler(NEXT_LONGEST).schedule_tasks` are the same computation: the
sequencing loops pick `max(available, key=duration)` identically and the
assignment loops coincide, so both agree on every input, errors
included. -/
theorem c9_longestFirst_eq_nextLongest :
    ∀ (tasks : List PTask) (r : Nat),
      longestFirstSchedule tasks r = scheduleTasks .nextLongest tasks r :=
  fun _ _ => rfl

/-- C10: on an empty task collection, `CriticalPathAnalysis` raises (the
`max()` over the empty set of earliest finishes), hence
`schedule_tasks` with `MIN_SLACK` raises as well, while `NEXT_LONGEST`
succeeds and returns the empty collection unchanged. -/
theorem c10_empty_collection :
    cpa [] = .error .emptyMaxArg ∧
    (∀ r : Nat, scheduleTasks .minSlack [] r = .error .emptyMaxArg) ∧
    (∀ r : Nat, scheduleTasks .nextLongest [] r = .ok []) :=
  ⟨rfl, fun _ => rfl, fun _ => rfl⟩

/-- C1 (failing input): on `cpsOverlapTasks` with two resources,
`CriticalPathScheduler.schedule` assigns tasks 3 and 4 to the same
resource 0 with intervals [1,3) and [2,3), which overlap — the claimed
no-overlap post-condition is violated by the code (the resource pick
`min(enumerate(resource_candidates), ...)[0]` returns a position into the
candidate dict, here a busy resource, instead of a free one). -/
theorem c1_criticalPathScheduler_overlap :
    cpsSchedule cpsOverlapTasks 2 = .ok
      [⟨⟨1, 2, []⟩, some 0, some 1⟩, ⟨⟨2, 1, []⟩, some 0, some 0⟩,
       ⟨⟨3, 2, [2]⟩, some 1, some 0⟩, ⟨⟨4, 1, [1]⟩, some 2, some 0⟩] ∧
    (⟨⟨3, 2, [2]⟩, some 1, some 0⟩ : STask).resource
      = (⟨⟨4, 1, [1]⟩, some 2, some 0⟩ : STask).resource ∧
    ((⟨⟨3, 2, [2]⟩, some 1, some 0⟩ : STask).start = some 1 ∧
     (⟨⟨3, 2, [2]⟩, some 1, some 0⟩ : STask).endTime = some 3 ∧
     (⟨⟨4, 1, [1]⟩, some 2, some 0⟩ : STask).start = some 2 ∧
     (⟨⟨4, 1, [1]⟩, some 2, some 0⟩ : STask).endTime = some 3 ∧
     (1 : Int) < 3 ∧ (2 : Int) < 3) := by
  refine ⟨by rfl, by rfl, by rfl, by rfl, by rfl, by rfl, by decide, by decide⟩

/-- C2 (failing input): on `cpsClosestTasks` with two resources, the
sequence is [3, 2, 1, 4]; before task 4 the resources become free at
[8, 6] and `deps_completion_time = 8`, so both resources are free by then
and the claimed choice is resource 0 (idle time 8, distance 0); the code
assigns resource 1 (idle time 6, distance 2) because
`min(enumerate(resource_candidates), ...)[0]` is a position into the
candidate dict, not the closest free resource. -/
theorem c2_criticalPathScheduler_not_closest :
    (cpa cpsClosestTasks).map
        (fun c => dispatch (cpsChoose c cpsClosestTasks) (depGraph cpsClosestTasks))
      = .ok (.ok [3, 2, 1, 4]) ∧
    [3, 2, 1].foldlM (cpsAssignStep cpsClosestTasks 2) ⟨[], List.replicate 2 0, []⟩
      = .ok cpsClosestState ∧
    pyMaxD ((taskMapD cpsClosestTasks 4).deps.map
        (fun d => alookupD cpsClosestState.completion d 0)) 0 = 8 ∧
    cpsClosestState.avail.getD 0 0 ≤ 8 ∧
    cpsClosestState.avail.getD 1 0 ≤ 8 ∧
    (8 : Int) - cpsClosestState.avail.getD 0 0
      < 8 - cpsClosestState.avail.getD 1 0 ∧
    (cpsAssignStep cpsClosestTasks 2 cpsClosestState 4).map
        (fun st => alookup st.assigned 4)
      = .ok (some (8, 1)) := by
  refine ⟨by rfl, by rfl, by rfl, by decide, by decide, by decide, by rfl⟩

/-- C8 (counterexample): in the concrete sample project, task T1 also has
slack 0 (its latest start equals its earliest start, both 0), so the
claimed "exactly T3 and T4 have slack 0" is false. -/
theorem c8_t1_slack_zero :
    (cpa sample5).map (fun c => (timingD c 1).slack) = .ok 0 ∧
    ¬ ((1 : Nat) = 3 ∨ (1 : Nat) = 4) := by
  exact ⟨by rfl, by decide⟩

/-- C8 (amended): the sample analysis yields `min_finish_time = 9` and the
claimed earliest times and slacks, with the critical (slack-0) tasks being
exactly T1, T3 and T4. -/
theorem c8_sample_analysis :
    ∃ c, cpa sample5 = .ok c ∧ c.minFinish = 9 ∧
      (timingD c 1).es = 0 ∧ (timingD c 1).ef = 3 ∧
      (timingD c 2).es = 0 ∧ (timingD c 2).ef = 2 ∧
      (timingD c 3).es = 3 ∧ (timingD c 3).ef = 7 ∧
      (timingD c 4).es = 7 ∧ (timingD c 4).ef = 9 ∧ (timingD c 4).slack = 0 ∧
      (timingD c 5).es = 7 ∧ (timingD c 5).ef = 8 ∧ (timingD c 5).slack = 1 ∧
      ∀ i ∈ [1, 2, 3, 4, 5],
        ((timingD c i).slack = 0 ↔ i = 1 ∨ i = 3 ∨ i = 4) := by
  refine ⟨⟨[(1, ⟨0, 3, 0, 3⟩), (2, ⟨0, 2, 1, 3⟩), (3, ⟨3, 7, 3, 7⟩),
            (4, ⟨7, 9, 7, 9⟩), (5, ⟨7, 8, 8, 9⟩)], 9⟩, by rfl, ?_⟩
  refine ⟨by rfl, ?_⟩
  exact ⟨by rfl, by rfl, by rfl, by rfl, by rfl, by rfl, by rfl, by rfl,
    by rfl, by rfl, by rfl, by rfl, by decide⟩

theorem depGraph_keys (tasks : List PTask) :
    (depGraph tasks).map (fun x => x.1) = tasks.map (fun t => t.id) := by
  simp [depGraph]

/-- C5 (counterexample): a task whose dependency id 2 is absent from the
collection makes the analysis fail with the very same cycle-detected error
that a genuine dependency cycle produces — there is no distinct
`UnknownDependency` error kind anywhere in the code, and nothing is
detected before traversal. -/
theorem c5_missing_dep_error_kind :
    cpa [⟨1, 5, [2]⟩] = .error .cycleDetected ∧
    cpa [⟨1, 1, [2]⟩, ⟨2, 1, [1]⟩] = .error .cycleDetected :=
  ⟨rfl, rfl⟩

/-- C5 (amended): whenever some task references a dependency id absent
from the collection, `CriticalPathAnalysis` fails with the cycle-detected
error, raised from the forward topological sort (the blocked task can
never become ready). -/
theorem c5_unknown_dep_cycle_error (tasks : List PTask)
    (hnd : (tasks.map (fun t => t.id)).Nodup)
    (hmissing : ∃ t ∈ tasks, ∃ d ∈ t.deps, d ∉ tasks.map (fun t => t.id)) :
    cpa tasks = .error .cycleDetected := by
  have hsort : topologicalSort (depGraph tasks) = .error .cycleDetected := by
    refine dispatch_missing_dep _ headD_mem _ ?_ ?_
    · rw [depGraph_keys]; exact hnd
    · rcases hmissing with ⟨t, ht, d, hd, hdk⟩
      refine ⟨(t.id, t.deps), List.mem_map_of_mem (fun t => (t.id, t.deps)) ht,
        d, hd, ?_⟩
      rw [depGraph_keys]; exact hdk
  simp only [cpa]
  rw [hsort]
  rfl

/-- C5 (witness): the amended statement at the concrete one-task
collection whose only dependency id 3 is unknown. -/
theorem c5_unknown_dep_cycle_error_witness :
    cpa [⟨1, 5, [3]⟩] = .error .cycleDetected :=
  c5_unknown_dep_cycle_error [⟨1, 5, [3]⟩] (by decide) (by decide)

/-- C6 (counterexample): the graph `{1: {2}}` is acyclic (its only edge is
2 → 1 and nothing reaches itself), yet `topological_sort` raises the cycle
error instead of returning a permutation, because the dependency id 2 is
not a key of the graph. -/
theorem c6_acyclic_graph_not_sorted :
    topologicalSort [(1, [2])] = .error .cycleDetected ∧ Acyclic [(1, [2])] := by
  refine ⟨by rfl, ?_⟩
  intro i hcon
  have hedge : ∀ a b : Nat, Edge [(1, [2])] a b → a = 2 ∧ b = 1 := by
    rintro a b ⟨ds, hds, ha⟩
    have hbd : b = 1 ∧ ds = [2] := by simpa using hds
    rcases hbd with ⟨hb, hds2⟩
    subst hds2
    have : a = 2 := by simpa using ha
    exact ⟨this, hb⟩
  have hts : ∀ a b : Nat, Relation.TransGen (Edge [(1, [2])]) a b → a = 2 ∧ b = 1 := by
    intro a b h
    induction h with
    | single h1 => exact hedge _ _ h1
    | tail _ h2 ih =>
      rcases hedge _ _ h2 with ⟨hc, hb⟩
      exact absurd (ih.2.symm.trans hc) (by decide)
  rcases hts i i hcon with ⟨h2, h1⟩
  rw [h1] at h2
  exact absurd h2 (by decide)

/-- C6 (amended): on an acyclic graph all of whose dependency ids are keys
(with the distinct keys of a Python dict), `topological_sort` returns a
permutation of the keys in which every id appears after all ids of its
incoming set; likewise `Scheduler.sequence_tasks` (for any heuristic that
picks a ready id, as both factory heuristics do) returns a permutation of
the task ids in which every task appears after all of its transitive
dependencies. -/
theorem c6_topological_order :
    (∀ g : Graph, (g.map (fun x => x.1)).Nodup → KnownDeps g → Acyclic g →
      ∃ l, topologicalSort g = .ok l ∧ l.Perm (g.map (fun x => x.1)) ∧
        ∀ b ds, (b, ds) ∈ g → ∀ a ∈ ds, l.indexOf a < l.indexOf b) ∧
    (∀ (tasks : List PTask) (choose : List Nat → Nat),
      (∀ l : List Nat, l ≠ [] → choose l ∈ l) →
      (tasks.map (fun t => t.id)).Nodup → KnownDeps (depGraph tasks) →
      Acyclic (depGraph tasks) →
      ∃ l, sequenceTasks tasks choose = .ok l ∧
        l.Perm (tasks.map (fun t => t.id)) ∧
        ∀ a b, Relation.TransGen (TaskDep tasks) a b →
          l.indexOf a < l.indexOf b) := by
  constructor
  · intro g hnd hkn hac
    rcases dispatch_ok_of_acyclic _ headD_mem g hnd hkn hac with ⟨l, hl⟩
    exact ⟨l, hl, dispatch_perm _ g hnd l hl,
      dispatch_indexOf _ headD_mem g hnd l hl⟩
  · intro tasks choose hch hnd hkn hac
    have hnd' : ((depGraph tasks).map (fun x => x.1)).Nodup := by
      rw [depGraph_keys]; exact hnd
    rcases dispatch_ok_of_acyclic choose hch _ hnd' hkn hac with ⟨l, hl⟩
    refine ⟨l, hl, ?_, ?_⟩
    · have := dispatch_perm choose _ hnd' l hl
      rw [depGraph_keys] at this
      exact this
    · intro a b htg
      induction htg with
      | single h1 =>
        rcases h1 with ⟨t, ht, rfl, ha⟩
        exact dispatch_indexOf choose hch _ hnd' l hl t.id t.deps
          (List.mem_map_of_mem (fun t => (t.id, t.deps)) ht) a ha
      | tail _ h2 ih =>
        rcases h2 with ⟨t, ht, rfl, hc⟩
        exact lt_trans ih (dispatch_indexOf choose hch _ hnd' l hl t.id t.deps
          (List.mem_map_of_mem (fun t => (t.id, t.deps)) ht) _ hc)

/-- C6 (witness): both halves of the amended statement instantiated at a
two-node concrete graph and task collection. -/
theorem c6_topological_order_witness :
    (∃ l, topologicalSort [(1, ([] : List Nat)), (2, [1])] = .ok l ∧
      l.Perm ([(1, ([] : List Nat)), (2, [1])].map (fun x => x.1)) ∧
      ∀ b ds, (b, ds) ∈ [(1, ([] : List Nat)), (2, [1])] →
        ∀ a ∈ ds, l.indexOf a < l.indexOf b) ∧
    (∃ l, sequenceTasks [⟨1, 1, []⟩, ⟨2, 1, [1]⟩] (fun l => l.headD 0) = .ok l ∧
      l.Perm ([⟨1, 1, []⟩, ⟨2, 1, [1]⟩].map (fun t => PTask.id t)) ∧
      ∀ a b, Relation.TransGen (TaskDep [⟨1, 1, []⟩, ⟨2, 1, [1]⟩]) a b →
        l.indexOf a < l.indexOf b) :=
  ⟨c6_topological_order.1 [(1, []), (2, [1])] (by decide) (by decide)
      (acyclic_of_lt _ (by decide)),
   c6_topological_order.2 [⟨1, 1, []⟩, ⟨2, 1, [1]⟩] (fun l => l.headD 0)
      headD_mem (by decide) (by decide) (acyclic_of_lt _ (by decide))⟩

/-! ## Association-list lemmas (dict reasoning) -/

theorem alookup_cons {α : Type} (e : Nat × α) (l : List (Nat × α)) (j : Nat) :
    alookup (e :: l) j = if e.1 == j then some e.2 else alookup l j := by
  by_cases h : e.1 == j <;> simp [alookup, List.find?, h]

/-- Mapping values (keys untouched) commutes with lookup. -/
theorem alookup_mapval {α : Type} (l : List (Nat × α)) (k : Nat) (f : α → α) (j : Nat) :
    alookup (l.map (fun e => if e.1 == k then (e.1, f e.2) else e)) j
      = if j = k then (alookup l j).map f else alookup l j := by
  induction l with
  | nil => by_cases h : j = k <;> simp [alookup, h]
  | cons e rest ih =>
    simp only [List.map_cons]
    rw [alookup_cons, alookup_cons]
    have hkey : (if e.1 == k then (e.1, f e.2) else e).1 = e.1 := by
      by_cases h : e.1 == k <;> simp [h]
    rw [hkey]
    by_cases hej : e.1 == j
    · have hej' : e.1 = j := by simpa using hej
      by_cases hjk : j = k
      · have hek : (e.1 == k) = true := by simp [hej', hjk]
        simp [hej, hek, hjk, alookup_cons]
      · have hek : (e.1 == k) = false := by
          simp only [beq_eq_false_iff_ne]
          intro hc; exact hjk (hej' ▸ hc)
        simp [hej, hek, hjk, alookup_cons]
    · by_cases hek : e.1 == k
      · simp only [hek, if_true, hej]
        rw [if_neg (by simpa using hej)]
        exact ih
      · simp only [hek, if_false, hej]
        rw [if_neg (by simpa using hej)]
        exact ih

theorem aset_eq_mapval {α : Type} (l : List (Nat × α)) (k : Nat) (v : α) :
    aset l k v = l.map (fun e => if e.1 == k then (e.1, (fun _ => v) e.2) else e) := by
  simp only [aset]
  refine List.map_congr_left ?_
  intro e _
  by_cases h : e.1 == k
  · have : e.1 = k := by simpa using h
    simp [h, this]
  · simp [h]

theorem alookup_aset {α : Type} (l : List (Nat × α)) (k : Nat) (v : α) (j : Nat) :
    alookup (aset l k v) j
      = if j = k then (alookup l j).map (fun _ => v) else alookup l j := by
  rw [aset_eq_mapval, alookup_mapval l k (fun _ => v) j]

theorem aset_keys {α : Type} (l : List (Nat × α)) (k : Nat) (v : α) :
    (aset l k v).map (fun e => e.1) = l.map (fun e => e.1) := by
  simp only [aset, List.map_map]
  refine List.map_congr_left ?_
  intro e _
  by_cases h : e.1 == k
  · have : e.1 = k := by simpa using h
    simp [h, Function.comp, this]
  · simp [h, Function.comp]

/-- A lookup hit names an entry of the list. -/
theorem alookup_mem {α : Type} {l : List (Nat × α)} {k : Nat} {v : α}
    (h : alookup l k = some v) : (k, v) ∈ l := by
  simp only [alookup] at h
  match hf : l.find? (fun e => e.1 == k) with
  | none => rw [hf] at h; simp at h
  | some e =>
    rw [hf] at h
    have hmem := List.mem_of_find?_eq_some hf
    have hkey : e.1 = k := by simpa using List.find?_some hf
    have hval : e.2 = v := by simpa using h
    have : e = (k, v) := by
      cases e; simp_all
    exact this ▸ hmem

/-- With distinct keys, every entry is the lookup result of its key. -/
theorem alookup_of_mem_nodup {α : Type} :
    ∀ {l : List (Nat × α)}, (l.map (fun e => e.1)).Nodup →
      ∀ {e : Nat × α}, e ∈ l → alookup l e.1 = some e.2 := by
  intro l
  induction l with
  | nil => intro _ e he; simp at he
  | cons x rest ih =>
    intro hnd e he
    simp only [List.map_cons, List.nodup_cons] at hnd
    rw [alookup_cons]
    rcases List.mem_cons.mp he with h | h
    · subst h; simp
    · have hxe : (x.1 == e.1) = false := by
        simp only [beq_eq_false_iff_ne]
        intro hc
        exact hnd.1 (hc ▸ List.mem_map_of_mem (fun e => e.1) h)
      simp only [hxe, if_false]
      exact ih hnd.2 h

/-- Lookup in a dict built by mapping over the task list. -/
theorem alookup_map_build {β : Type} (f : PTask → β) :
    ∀ {tasks : List PTask}, (tasks.map (fun t => t.id)).Nodup →
      ∀ {t : PTask}, t ∈ tasks →
        alookup (tasks.map (fun u => (u.id, f u))) t.id = some (f t) := by
  intro tasks hnd t ht
  have hkeys : ((tasks.map (fun u => (u.id, f u))).map (fun e => e.1))
      = tasks.map (fun t => t.id) := by
    simp [List.map_map, Function.comp]
  have : ((t.id, f t) : Nat × β) ∈ tasks.map (fun u => (u.id, f u)) :=
    List.mem_map_of_mem (fun u => (u.id, f u)) ht
  exact alookup_of_mem_nodup (by rw [hkeys]; exact hnd) this

/-- Task ids determine tasks when ids are distinct. -/
theorem task_id_unique :
    ∀ {tasks : List PTask}, (tasks.map (fun t => t.id)).Nodup →
      ∀ {t u : PTask}, t ∈ tasks → u ∈ tasks → t.id = u.id → t = u := by
  intro tasks
  induction tasks with
  | nil => intro _ t u ht; simp at ht
  | cons x rest ih =>
    intro hnd t u ht hu hid
    simp only [List.map_cons, List.nodup_cons] at hnd
    rcases List.mem_cons.mp ht with h1 | h1 <;> rcases List.mem_cons.mp hu with h2 | h2
    · rw [h1, h2]
    · exfalso
      exact hnd.1 (by rw [h1] at hid; rw [hid]; exact List.mem_map_of_mem (fun t => t.id) h2)
    · exfalso
      exact hnd.1 (by rw [h2] at hid; rw [← hid]; exact List.mem_map_of_mem (fun t => t.id) h1)
    · exact ih hnd.2 h1 h2 hid

/-- `as_map()` lookup of a task id returns that task. -/
theorem taskMapD_of_mem :
    ∀ {tasks : List PTask}, (tasks.map (fun t => t.id)).Nodup →
      ∀ {t : PTask}, t ∈ tasks → taskMapD tasks t.id = t := by
  intro tasks
  induction tasks with
  | nil => intro _ t ht; simp at ht
  | cons x rest ih =>
    intro hnd t ht
    simp only [List.map_cons, List.nodup_cons] at hnd
    rcases List.mem_cons.mp ht with h | h
    · subst h
      simp [taskMapD, List.find?]
    · have hxt : (x.id == t.id) = false := by
        simp only [beq_eq_false_iff_ne]
        intro hc
        exact hnd.1 (hc ▸ List.mem_map_of_mem (fun t => t.id) h)
      simp only [taskMapD, List.find?, hxt]
      exact ih hnd.2 h

/-- Dependency-list lookup in the forward graph. -/
theorem alookup_depGraph {tasks : List PTask}
    (hnd : (tasks.map (fun t => t.id)).Nodup) {t : PTask} (ht : t ∈ tasks) :
    alookup (depGraph tasks) t.id = some t.deps :=
  alookup_map_build (fun t => t.deps) hnd ht

/-! ## Dependency chains -/

/-- A chain through the collection ending at id `j`. -/
def ChainEnd (tasks : List PTask) (c : List Nat) (j : Nat) : Prop :=
  IsChain tasks c ∧ c.getLast? = some j

/-- `v` is the maximal duration-weighted length of a chain ending at `j`,
and it is attained. -/
def BestEF (tasks : List PTask) (j : Nat) (v : Int) : Prop :=
  (∃ c, ChainEnd tasks c j ∧ chainWeight tasks c = v) ∧
  (∀ c, ChainEnd tasks c j → chainWeight tasks c ≤ v)

theorem chainEnd_singleton {tasks : List PTask} {j : Nat}
    (hj : j ∈ tasks.map (fun t => t.id)) : ChainEnd tasks [j] j :=
  ⟨⟨by simp, by simpa using hj, by simp⟩, rfl⟩

theorem chainWeight_singleton (tasks : List PTask) (j : Nat) :
    chainWeight tasks [j] = (taskMapD tasks j).duration := by
  simp [chainWeight]

theorem chainWeight_snoc (tasks : List PTask) (c : List Nat) (j : Nat) :
    chainWeight tasks (c ++ [j]) = chainWeight tasks c + (taskMapD tasks j).duration := by
  simp [chainWeight]

theorem chainWeight_nonneg {tasks : List PTask} {c : List Nat}
    (hnd : (tasks.map (fun t => t.id)).Nodup)
    (hdur : ∀ t ∈ tasks, 0 ≤ t.duration)
    (hmem : ∀ x ∈ c, x ∈ tasks.map (fun t => t.id)) :
    0 ≤ chainWeight tasks c := by
  refine List.sum_nonneg ?_
  intro v hv
  rcases List.mem_map.mp hv with ⟨j, hj, rfl⟩
  rcases List.mem_map.mp (hmem j hj) with ⟨t, ht, rfl⟩
  rw [taskMapD_of_mem hnd ht]
  exact hdur t ht

theorem chainEnd_snoc {tasks : List PTask} {c : List Nat} {d j : Nat}
    (hc : ChainEnd tasks c d) (hdj : TaskDep tasks d j)
    (hj : j ∈ tasks.map (fun t => t.id)) :
    ChainEnd tasks (c ++ [j]) j := by
  rcases hc with ⟨⟨hne, hmem, hch⟩, hlast⟩
  refine ⟨⟨by simp, ?_, ?_⟩, by simp⟩
  · intro x hx
    rcases List.mem_append.mp hx with h | h
    · exact hmem x h
    · have : x = j := by simpa using h
      exact this ▸ hj
  · rw [List.chain'_append]
    refine ⟨hch, List.chain'_singleton j, ?_⟩
    intro x hx y hy
    rw [hlast] at hx
    have hx2 : d = x := by simpa using hx
    have hy2 : j = y := by simpa using hy
    rw [← hx2, ← hy2]
    exact hdj

theorem chainEnd_cases {tasks : List PTask} {c : List Nat} {j : Nat}
    (hc : ChainEnd tasks c j) :
    c = [j] ∨ ∃ c' d, c = c' ++ [j] ∧ ChainEnd tasks c' d ∧ TaskDep tasks d j := by
  rcases hc with ⟨⟨hne, hmem, hch⟩, hlast⟩
  have hglast : c.getLast hne = j := by
    rw [List.getLast?_eq_getLast c hne] at hlast
    simpa using hlast
  have hsplit : c.dropLast ++ [j] = c := by
    rw [← hglast]
    exact List.dropLast_append_getLast hne
  match hdl : c.dropLast with
  | [] =>
    left
    rw [← hsplit, hdl]
    simp
  | x :: xs =>
    right
    have hsplit2 : (x :: xs) ++ [j] = c := by rw [← hdl]; exact hsplit
    have hch2 : List.Chain' (fun a b => TaskDep tasks a b) ((x :: xs) ++ [j]) := by
      rw [hsplit2]; exact hch
    rw [List.chain'_append] at hch2
    rcases hch2 with ⟨hch', _, hrel⟩
    have hxne : (x :: xs) ≠ ([] : List Nat) := by simp
    refine ⟨x :: xs, (x :: xs).getLast hxne, hsplit2.symm, ⟨⟨hxne, ?_, hch'⟩, ?_⟩, ?_⟩
    · intro y hy
      refine hmem y ?_
      rw [← hsplit2]
      exact List.mem_append_left _ hy
    · rw [List.getLast?_eq_getLast _ hxne]
    · refine hrel _ ?_ j ?_
      · rw [List.getLast?_eq_getLast _ hxne]; simp
      · simp

/-! ## Forward pass correctness -/

theorem dep_mem_ids {tasks : List PTask} (hkn : KnownDeps (depGraph tasks))
    {ti : PTask} (hti : ti ∈ tasks) {d : Nat} (hd : d ∈ ti.deps) :
    d ∈ tasks.map (fun t => t.id) := by
  have := hkn (ti.id, ti.deps)
    (List.mem_map_of_mem (fun t => (t.id, t.deps)) hti) d hd
  rwa [depGraph_keys] at this

/-- The forward update realises the longest chain ending at the processed
task, given that the recorded values of its dependencies already do. -/
theorem bestEF_step {tasks : List PTask}
    (hnd : (tasks.map (fun t => t.id)).Nodup)
    (hdur : ∀ t ∈ tasks, 0 ≤ t.duration)
    {ti : PTask} (hti : ti ∈ tasks) (f : Nat → Int)
    (hdepb : ∀ d ∈ ti.deps, BestEF tasks d (f d)) :
    BestEF tasks ti.id (pyMaxD (ti.deps.map f) 0 + ti.duration) := by
  have hids : ti.id ∈ tasks.map (fun t => t.id) :=
    List.mem_map_of_mem (fun t => t.id) hti
  have htm : taskMapD tasks ti.id = ti := taskMapD_of_mem hnd hti
  have hnn : ∀ d ∈ ti.deps, 0 ≤ f d := by
    intro d hd
    rcases (hdepb d hd).1 with ⟨c, hc, hw⟩
    rw [← hw]
    exact chainWeight_nonneg hnd hdur hc.1.2.1
  have hmax_nonneg : 0 ≤ pyMaxD (ti.deps.map f) 0 := by
    cases hdds : ti.deps with
    | nil => simp [pyMaxD]
    | cons d0 ds =>
      have hmm : pyMaxD ((d0 :: ds).map f) 0 ∈ (d0 :: ds).map f :=
        pyMaxD_mem (by simp) 0
      rcases List.mem_map.mp hmm with ⟨dstar, hdstar, hfd⟩
      rw [← hfd]
      exact hnn dstar (by rw [hdds]; exact hdstar)
  constructor
  · cases hdds : ti.deps with
    | nil =>
      refine ⟨[ti.id], chainEnd_singleton hids, ?_⟩
      rw [chainWeight_singleton, htm]
      simp [pyMaxD]
    | cons d0 ds =>
      have hmm : pyMaxD ((d0 :: ds).map f) 0 ∈ (d0 :: ds).map f :=
        pyMaxD_mem (by simp) 0
      rcases List.mem_map.mp hmm with ⟨dstar, hdstar, hfd⟩
      have hdsmem : dstar ∈ ti.deps := by rw [hdds]; exact hdstar
      rcases (hdepb dstar hdsmem).1 with ⟨c, hc, hw⟩
      refine ⟨c ++ [ti.id], chainEnd_snoc hc ⟨ti, hti, rfl, hdsmem⟩ hids, ?_⟩
      rw [chainWeight_snoc, htm, hw, hfd]
  · intro c hc
    rcases chainEnd_cases hc with h | ⟨c', d, hceq, hc', hdep⟩
    · rw [h, chainWeight_singleton, htm]
      omega
    · rcases hdep with ⟨u, hu, huid, hdin⟩
      have hu_ti : u = ti := task_id_unique hnd hu hti huid
      have hdin2 : d ∈ ti.deps := hu_ti ▸ hdin
      rw [hceq, chainWeight_snoc, htm]
      have h1 : chainWeight tasks c' ≤ f d := (hdepb d hdin2).2 c' hc'
      have h2 : f d ≤ pyMaxD (ti.deps.map f) 0 :=
        le_pyMaxD (List.mem_map_of_mem f hdin2) 0
      omega

/-- Invariant of the forward pass: keys are the task ids in task order;
processed ids carry their final earliest times, which realise the longest
chain ending there; unprocessed ids still hold the zero timing.  The
latest times are zero throughout. -/
def FwdInv (tasks : List PTask) (done : List Nat) (tm : List (Nat × Timing)) : Prop :=
  tm.map (fun e => e.1) = tasks.map (fun t => t.id) ∧
  ∀ t ∈ tasks, ∃ tmv, alookup tm t.id = some tmv ∧ tmv.ls = 0 ∧ tmv.lf = 0 ∧
    (t.id ∈ done → tmv.ef = tmv.es + t.duration ∧ BestEF tasks t.id tmv.ef) ∧
    (t.id ∉ done → tmv = Timing.zero)

theorem fwdInv_init (tasks : List PTask)
    (hnd : (tasks.map (fun t => t.id)).Nodup) :
    FwdInv tasks [] (tasks.map (fun t => (t.id, Timing.zero))) := by
  constructor
  · simp [List.map_map, Function.comp]
  · intro t ht
    exact ⟨Timing.zero, alookup_map_build (fun _ => Timing.zero) hnd ht,
      rfl, rfl, by simp, fun _ => rfl⟩

theorem fwdInv_step {tasks : List PTask}
    (hnd : (tasks.map (fun t => t.id)).Nodup)
    (hkn : KnownDeps (depGraph tasks))
    (hdur : ∀ t ∈ tasks, 0 ≤ t.duration)
    {done : List Nat} {tm : List (Nat × Timing)} {ti : PTask} (hti : ti ∈ tasks)
    (hdeps : ∀ d ∈ ti.deps, d ∈ done)
    (hnotdone : ti.id ∉ done)
    (hInv : FwdInv tasks done tm) :
    FwdInv tasks (done ++ [ti.id]) (forwardStep tasks (depGraph tasks) tm ti.id) := by
  obtain ⟨hkeys, hlk⟩ := hInv
  have hds : alookupD (depGraph tasks) ti.id [] = ti.deps := by
    simp [alookupD, alookup_depGraph hnd hti]
  have htm : taskMapD tasks ti.id = ti := taskMapD_of_mem hnd hti
  rcases hlk ti hti with ⟨tmv0, hlk0, -, -, -, hz5⟩
  have hz0 : tmv0 = Timing.zero := hz5 hnotdone
  have hdepb : ∀ d ∈ ti.deps, BestEF tasks d ((alookupD tm d Timing.zero).ef) := by
    intro d hd
    have hdids := dep_mem_ids hkn hti hd
    rcases List.mem_map.mp hdids with ⟨td, htd, htdid⟩
    rcases hlk td htd with ⟨tmvd, hlkd, -, -, hdone4, -⟩
    have hbest : BestEF tasks td.id tmvd.ef :=
      (hdone4 (by rw [htdid]; exact hdeps d hd)).2
    have hlkup : alookupD tm d Timing.zero = tmvd := by
      rw [← htdid]
      simp [alookupD, hlkd]
    rw [hlkup, ← htdid]
    exact hbest
  have hstep : forwardStep tasks (depGraph tasks) tm ti.id
      = aset tm ti.id
          ⟨pyMaxD (ti.deps.map (fun d => (alookupD tm d Timing.zero).ef)) 0,
           pyMaxD (ti.deps.map (fun d => (alookupD tm d Timing.zero).ef)) 0
             + ti.duration, 0, 0⟩ := by
    have hcur : alookupD tm ti.id Timing.zero = Timing.zero := by
      simp [alookupD, hlk0, hz0]
    simp only [forwardStep, hds, htm, hcur]
    rfl
  rw [hstep]
  constructor
  · rw [aset_keys]; exact hkeys
  · intro u hu
    by_cases hui : u.id = ti.id
    · have hu_ti : u = ti := task_id_unique hnd hu hti hui
      rw [hu_ti]
      refine ⟨⟨pyMaxD (ti.deps.map (fun d => (alookupD tm d Timing.zero).ef)) 0,
               pyMaxD (ti.deps.map (fun d => (alookupD tm d Timing.zero).ef)) 0
                 + ti.duration, 0, 0⟩, ?_, rfl, rfl, ?_, ?_⟩
      · rw [alookup_aset, if_pos rfl, hlk0]
        rfl
      · intro _
        exact ⟨rfl, bestEF_step hnd hdur hti _ hdepb⟩
      · intro hcon
        exact absurd (List.mem_append_right done (by simp)) hcon
    · rcases hlk u hu with ⟨tmvu, hlku, hls, hlf, hd4, hd5⟩
      refine ⟨tmvu, ?_, hls, hlf, ?_, ?_⟩
      · rw [alookup_aset, if_neg hui]; exact hlku
      · intro hmem
        refine hd4 ?_
        rcases List.mem_append.mp hmem with h | h
        · exact h
        · exact absurd (by simpa using h) hui
      · intro hnmem
        refine hd5 ?_
        intro hcon
        exact hnmem (List.mem_append_left _ hcon)

theorem fwdInv_fold {tasks : List PTask}
    (hnd : (tasks.map (fun t => t.id)).Nodup)
    (hkn : KnownDeps (depGraph tasks))
    (hdur : ∀ t ∈ tasks, 0 ≤ t.duration)
    (hac : Acyclic (depGraph tasks))
    {sorted : List Nat}
    (hok : topologicalSort (depGraph tasks) = .ok sorted) :
    FwdInv tasks sorted
      (sorted.foldl (forwardStep tasks (depGraph tasks))
        (tasks.map (fun t => (t.id, Timing.zero)))) := by
  have hgnd : ((depGraph tasks).map (fun x => x.1)).Nodup := by
    rw [depGraph_keys]; exact hnd
  have hperm : sorted.Perm (tasks.map (fun t => t.id)) := by
    have := dispatch_perm _ _ hgnd sorted hok
    rwa [depGraph_keys] at this
  have hsnd : sorted.Nodup := hperm.nodup_iff.mpr hnd
  have hpw := dispatch_pairwise _ headD_mem _ hgnd sorted hok
  suffices H : ∀ rest done tm, sorted = done ++ rest → FwdInv tasks done tm →
      FwdInv tasks sorted (rest.foldl (forwardStep tasks (depGraph tasks)) tm) by
    exact H sorted [] _ rfl (fwdInv_init tasks hnd)
  intro rest
  induction rest with
  | nil =>
    intro done tm hsplit hInv
    have hds2 : done = sorted := by rw [hsplit]; simp
    rw [List.foldl_nil, ← hds2]
    exact hInv
  | cons i rest ih =>
    intro done tm hsplit hInv
    have hisorted : i ∈ sorted := by rw [hsplit]; simp
    have hiids : i ∈ tasks.map (fun t => t.id) := hperm.mem_iff.mp hisorted
    rcases List.mem_map.mp hiids with ⟨ti, hti, htiid⟩
    subst htiid
    have hnotdone : ti.id ∉ done := by
      have hn2 := hsnd
      rw [hsplit] at hn2
      rcases List.nodup_append.mp hn2 with ⟨-, -, hdisj⟩
      intro hcon
      exact hdisj hcon (by simp)
    have hdeps : ∀ d ∈ ti.deps, d ∈ done := by
      intro d hd
      have hdids : d ∈ tasks.map (fun t => t.id) := dep_mem_ids hkn hti hd
      have hdsorted : d ∈ sorted := hperm.mem_iff.mpr hdids
      rw [hsplit] at hdsorted
      rcases List.mem_append.mp hdsorted with h | h
      · exact h
      · rcases List.mem_cons.mp h with h | h
        · exfalso
          refine hac ti.id (Relation.TransGen.single ?_)
          refine ⟨ti.deps, List.mem_map_of_mem (fun t => (t.id, t.deps)) hti, ?_⟩
          rw [← h]; exact hd
        · exfalso
          have hpw2 := hpw
          rw [hsplit] at hpw2
          have hpartial := (List.pairwise_append.mp hpw2).2.1
          have hri := (List.pairwise_cons.mp hpartial).1 d h
          exact hri ti.deps
            (List.mem_map_of_mem (fun t => (t.id, t.deps)) hti) hd
    rw [List.foldl_cons]
    refine ih (done ++ [ti.id]) _ ?_ (fwdInv_step hnd hkn hdur hti hdeps hnotdone hInv)
    rw [hsplit, List.append_cons]

/-! ## The reversed graph -/

theorem mapentry_keys {α : Type} (l : List (Nat × α)) (g : Nat × α → Nat × α)
    (hg : ∀ e, (g e).1 = e.1) :
    (l.map g).map (fun e => e.1) = l.map (fun e => e.1) := by
  simp only [List.map_map]
  exact List.map_congr_left (fun e _ => hg e)

theorem alookup_mapentry {α : Type} (l : List (Nat × α)) (g : Nat × α → Nat × α)
    (hg : ∀ e, (g e).1 = e.1) (j : Nat) :
    alookup (l.map g) j = (alookup l j).map (fun v => (g (j, v)).2) := by
  induction l with
  | nil => simp [alookup]
  | cons e rest ih =>
    simp only [List.map_cons]
    rw [alookup_cons, alookup_cons, hg e]
    by_cases hej : e.1 == j
    · have hej' : e.1 = j := by simpa using hej
      have hpair : ((j, e.2) : Nat × α) = e := by
        cases e; simp_all
      simp only [hej, if_true, Option.map]
      rw [hpair]
    · simp only [hej, if_false]
      exact ih

theorem alookup_exists {α : Type} {l : List (Nat × α)} {k : Nat}
    (h : k ∈ l.map (fun e => e.1)) : ∃ v, alookup l k = some v := by
  rcases List.mem_map.mp h with ⟨e, he, hek⟩
  match hf : l.find? (fun e => e.1 == k) with
  | some e' => exact ⟨e'.2, by simp [alookup, hf]⟩
  | none =>
    exfalso
    have := List.find?_eq_none.mp hf e he
    simp [hek] at this

/-- The inner loop of `buildReversed` (over one task's dependency set)
succeeds when all dependencies are keys, and appends the task id to
exactly the entries of those dependencies. -/
theorem buildReversed_inner (tasks : List PTask) (tid : Nat) (B : Nat → Nat → Prop) :
    ∀ (ds dsdone : List Nat) (acc : Graph),
      acc.map (fun e => e.1) = tasks.map (fun t => t.id) →
      (∀ d ∈ ds, d ∈ tasks.map (fun t => t.id)) →
      (∀ p cs, alookup acc p = some cs →
        ∀ j, (j ∈ cs ↔ B p j ∨ (j = tid ∧ p ∈ dsdone))) →
      ∃ acc',
        (ds.foldlM (fun acc2 p =>
            if acc2.any (fun e => e.1 == p) then
              Except.ok (acc2.map (fun e => if e.1 == p then (e.1, e.2 ++ [tid]) else e))
            else Except.error PyErr.keyError) acc) = .ok acc' ∧
        acc'.map (fun e => e.1) = tasks.map (fun t => t.id) ∧
        (∀ p cs, alookup acc' p = some cs →
          ∀ j, (j ∈ cs ↔ B p j ∨ (j = tid ∧ p ∈ dsdone ++ ds))) := by
  intro ds
  induction ds with
  | nil =>
    intro dsdone acc hkeys _ hinv
    refine ⟨acc, rfl, hkeys, ?_⟩
    intro p cs hcs j
    rw [hinv p cs hcs j]
    simp
  | cons p0 ds' ih =>
    intro dsdone acc hkeys hds hinv
    have hgkeys : ∀ e : Nat × List Nat,
        ((fun e : Nat × List Nat =>
          if e.1 == p0 then (e.1, e.2 ++ [tid]) else e) e).1 = e.1 := by
      intro e
      by_cases h : e.1 == p0 <;> simp [h]
    have hp0 : p0 ∈ acc.map (fun e => e.1) := by
      rw [hkeys]; exact hds p0 (by simp)
    have hany : acc.any (fun e => e.1 == p0) = true := by
      rcases List.mem_map.mp hp0 with ⟨e, he, hek⟩
      exact List.any_eq_true.mpr ⟨e, he, by simp [hek]⟩
    rw [List.foldlM_cons, hany, if_pos rfl]
    have hkeys2 : (acc.map (fun e =>
        if e.1 == p0 then (e.1, e.2 ++ [tid]) else e)).map (fun e => e.1)
        = tasks.map (fun t => t.id) := by
      rw [mapentry_keys _ _ hgkeys]; exact hkeys
    have hinv2 : ∀ p cs,
        alookup (acc.map (fun e =>
          if e.1 == p0 then (e.1, e.2 ++ [tid]) else e)) p = some cs →
        ∀ j, (j ∈ cs ↔ B p j ∨ (j = tid ∧ p ∈ dsdone ++ [p0])) := by
      intro p cs hcs j
      rw [alookup_mapentry acc _ hgkeys p] at hcs
      match halk : alookup acc p with
      | none => rw [halk] at hcs; simp [Option.map] at hcs
      | some cs0 =>
        rw [halk] at hcs
        simp only [Option.map, Option.some.injEq] at hcs
        have hold := hinv p cs0 halk j
        by_cases hpp : p = p0
        · have hcseq : cs0 ++ [tid] = cs := by
            have hbeq : ((p, cs0).1 == p0) = true := by simp [hpp]
            simpa [hbeq] using hcs
          rw [← hcseq]
          simp only [List.mem_append, List.mem_singleton, hold]
          constructor
          · rintro (⟨hb | ⟨hjt, hpd⟩⟩ | hjt)
            · exact Or.inl hb
            · exact Or.inr ⟨hjt, by simp [hpd]⟩
            · exact Or.inr ⟨hjt, by simp [hpp]⟩
          · rintro (hb | ⟨hjt, _⟩)
            · exact Or.inl (Or.inl hb)
            · exact Or.inr hjt
        · have hcseq : cs0 = cs := by
            have hbeq : ((p, cs0).1 == p0) = false := by
              simp only [beq_eq_false_iff_ne]
              simpa using hpp
            simpa [hbeq] using hcs
          rw [← hcseq, hold]
          constructor
          · rintro (hb | ⟨hjt, hpd⟩)
            · exact Or.inl hb
            · exact Or.inr ⟨hjt, List.mem_append_left _ hpd⟩
          · rintro (hb | ⟨hjt, hpd⟩)
            · exact Or.inl hb
            · refine Or.inr ⟨hjt, ?_⟩
              rcases List.mem_append.mp hpd with h | h
              · exact h
              · exact absurd (by simpa using h) hpp
    rcases ih (dsdone ++ [p0]) _ hkeys2 (fun d hd => hds d (by simp [hd])) hinv2
      with ⟨acc', hfold, hk', hi'⟩
    refine ⟨acc', hfold, hk', ?_⟩
    intro p cs hcs j
    rw [hi' p cs hcs j]
    simp [List.append_assoc]

/-- `buildReversed` succeeds on a collection whose dependencies are known;
its keys are the task ids, and membership of `j` in the entry of `p` says
exactly that the task with id `j` depends on `p`. -/
theorem buildReversed_ok {tasks : List PTask}
    (hkn : KnownDeps (depGraph tasks)) :
    ∃ rev, buildReversed tasks = .ok rev ∧
      rev.map (fun e => e.1) = tasks.map (fun t => t.id) ∧
      ∀ p cs, alookup rev p = some cs →
        ∀ j, (j ∈ cs ↔ ∃ t ∈ tasks, t.id = j ∧ p ∈ t.deps) := by
  suffices H : ∀ rest processed : List PTask, ∀ acc : Graph,
      tasks = processed ++ rest →
      acc.map (fun e => e.1) = tasks.map (fun t => t.id) →
      (∀ p cs, alookup acc p = some cs →
        ∀ j, (j ∈ cs ↔ ∃ t ∈ processed, t.id = j ∧ p ∈ t.deps)) →
      ∃ rev,
        (rest.foldlM (fun acc t =>
          t.deps.foldlM (fun acc2 p =>
            if acc2.any (fun e => e.1 == p) then
              Except.ok (acc2.map (fun e => if e.1 == p then (e.1, e.2 ++ [t.id]) else e))
            else Except.error PyErr.keyError) acc) acc) = .ok rev ∧
        rev.map (fun e => e.1) = tasks.map (fun t => t.id) ∧
        (∀ p cs, alookup rev p = some cs →
          ∀ j, (j ∈ cs ↔ ∃ t ∈ tasks, t.id = j ∧ p ∈ t.deps)) by
    refine H tasks [] (tasks.map (fun t => (t.id, ([] : List Nat)))) rfl ?_ ?_
    · simp [List.map_map, Function.comp]
    · intro p cs hcs j
      have hmem := alookup_mem hcs
      rcases List.mem_map.mp hmem with ⟨t, _, hpair⟩
      have : cs = [] := congrArg Prod.snd hpair.symm
      rw [this]
      simp
  intro rest
  induction rest with
  | nil =>
    intro processed acc hsplit hkeys hinv
    refine ⟨acc, rfl, hkeys, ?_⟩
    have : processed = tasks := by rw [hsplit]; simp
    rw [← this]
    exact hinv
  | cons t rest' ih =>
    intro processed acc hsplit hkeys hinv
    have ht : t ∈ tasks := by rw [hsplit]; simp
    rw [List.foldlM_cons]
    rcases buildReversed_inner tasks t.id
        (fun p j => ∃ u ∈ processed, u.id = j ∧ p ∈ u.deps)
        t.deps [] acc hkeys (fun d hd => dep_mem_ids hkn ht hd)
        (by
          intro p cs hcs j
          rw [hinv p cs hcs j]
          simp)
      with ⟨acc2, hfold, hk2, hi2⟩
    rw [hfold]
    refine ih (processed ++ [t]) acc2 (by rw [hsplit, List.append_cons]) hk2 ?_
    intro p cs hcs j
    rw [hi2 p cs hcs j]
    constructor
    · rintro (⟨u, hu, hju, hpu⟩ | ⟨hjt, hpd⟩)
      · exact ⟨u, List.mem_append_left _ hu, hju, hpu⟩
      · exact ⟨t, List.mem_append_right _ (by simp), by rw [hjt], by simpa using hpd⟩
    · rintro ⟨u, hu, hju, hpu⟩
      rcases List.mem_append.mp hu with h | h
      · exact Or.inl ⟨u, h, hju, hpu⟩
      · have : u = t := by simpa using h
        subst this
        exact Or.inr ⟨hju.symm, by simpa using hpu⟩


/-! ## Named views of the analysis intermediates -/

/-- The timing dict after the forward pass (the value of `self.timing`
when `forward_backward_passes` reaches the `min_finish_time` line). -/
def fwdTiming (tasks : List PTask) (sorted : List Nat) : List (Nat × Timing) :=
  sorted.foldl (forwardStep tasks (depGraph tasks))
    (tasks.map (fun t => (t.id, Timing.zero)))

/-- `min_finish_time = max(t.earliest_finish for t in self.timing.values())`. -/
def minFinish (tasks : List PTask) (sorted : List Nat) : Int :=
  pyMaxD ((fwdTiming tasks sorted).map (fun e => e.2.ef)) 0

/-- The timing dict after the backward pass. -/
def bwdTiming (tasks : List PTask) (sorted bsorted : List Nat) (rev : Graph) :
    List (Nat × Timing) :=
  bsorted.foldl (backwardStep tasks rev (minFinish tasks sorted))
    (fwdTiming tasks sorted)

theorem forward_fold_keys (tasks : List PTask) (g : Graph) :
    ∀ (l : List Nat) (tm : List (Nat × Timing)),
      ((l.foldl (forwardStep tasks g) tm).map (fun e => e.1))
        = tm.map (fun e => e.1) := by
  intro l
  induction l with
  | nil => intro tm; rfl
  | cons i l ih =>
    intro tm
    rw [List.foldl_cons, ih]
    exact aset_keys tm i _

theorem backward_fold_keys (tasks : List PTask) (rev : Graph) (mf : Int) :
    ∀ (l : List Nat) (tm : List (Nat × Timing)),
      ((l.foldl (backwardStep tasks rev mf) tm).map (fun e => e.1))
        = tm.map (fun e => e.1) := by
  intro l
  induction l with
  | nil => intro tm; rfl
  | cons i l ih =>
    intro tm
    rw [List.foldl_cons, ih]
    exact aset_keys tm i _

/-- After the forward pass every task's entry holds
`earliest_finish = earliest_start + duration`, the longest-chain value, and
is bounded by `min_finish_time`. -/
theorem fwdTiming_spec {tasks : List PTask}
    (hnd : (tasks.map (fun t => t.id)).Nodup)
    (hkn : KnownDeps (depGraph tasks))
    (hdur : ∀ t ∈ tasks, 0 ≤ t.duration)
    (hac : Acyclic (depGraph tasks))
    {sorted : List Nat}
    (hok : topologicalSort (depGraph tasks) = .ok sorted) :
    (fwdTiming tasks sorted).map (fun e => e.1) = tasks.map (fun t => t.id) ∧
    ∀ t ∈ tasks, ∃ v, alookup (fwdTiming tasks sorted) t.id = some v ∧
      v.ef = v.es + t.duration ∧ BestEF tasks t.id v.ef ∧
      v.ef ≤ minFinish tasks sorted := by
  obtain ⟨hkeys, hlk⟩ := fwdInv_fold hnd hkn hdur hac hok
  have hgnd : ((depGraph tasks).map (fun x => x.1)).Nodup := by
    rw [depGraph_keys]; exact hnd
  have hperm : sorted.Perm (tasks.map (fun t => t.id)) := by
    have := dispatch_perm _ _ hgnd sorted hok
    rwa [depGraph_keys] at this
  refine ⟨hkeys, ?_⟩
  intro t ht
  obtain ⟨v, hv, -, -, hdone, -⟩ := hlk t ht
  have hts : t.id ∈ sorted :=
    hperm.mem_iff.mpr (List.mem_map_of_mem (fun t => t.id) ht)
  obtain ⟨hef, hbest⟩ := hdone hts
  refine ⟨v, hv, hef, hbest, ?_⟩
  exact le_pyMaxD (List.mem_map.mpr ⟨(t.id, v), alookup_mem hv, rfl⟩) 0

/-- On a non-empty collection `min_finish_time` is the `earliest_finish`
of some task. -/
theorem minFinish_entry {tasks : List PTask} (hne : tasks ≠ [])
    (hnd : (tasks.map (fun t => t.id)).Nodup)
    (hkn : KnownDeps (depGraph tasks))
    (hdur : ∀ t ∈ tasks, 0 ≤ t.duration)
    (hac : Acyclic (depGraph tasks))
    {sorted : List Nat}
    (hok : topologicalSort (depGraph tasks) = .ok sorted) :
    ∃ t ∈ tasks, ∃ v, alookup (fwdTiming tasks sorted) t.id = some v ∧
      v.ef = minFinish tasks sorted := by
  have hkeys := (fwdTiming_spec hnd hkn hdur hac hok).1
  have htm1ne : fwdTiming tasks sorted ≠ [] := by
    intro hc
    apply hne
    have h2 := hkeys
    rw [hc] at h2
    exact List.map_eq_nil_iff.mp h2.symm
  have hmm : minFinish tasks sorted
      ∈ (fwdTiming tasks sorted).map (fun e => e.2.ef) :=
    pyMaxD_mem (by simpa using htm1ne) 0
  rcases List.mem_map.mp hmm with ⟨e, he, hef⟩
  have h1 : e.1 ∈ tasks.map (fun t => t.id) := by
    rw [← hkeys]
    exact List.mem_map_of_mem (fun e => e.1) he
  rcases List.mem_map.mp h1 with ⟨t, ht, htid⟩
  refine ⟨t, ht, e.2, ?_, hef⟩
  rw [htid]
  exact alookup_of_mem_nodup (by rw [hkeys]; exact hnd) he

/-- Every dependency chain's weight is at most `min_finish_time`. -/
theorem chain_le_minFinish {tasks : List PTask}
    (hnd : (tasks.map (fun t => t.id)).Nodup)
    (hkn : KnownDeps (depGraph tasks))
    (hdur : ∀ t ∈ tasks, 0 ≤ t.duration)
    (hac : Acyclic (depGraph tasks))
    {sorted : List Nat}
    (hok : topologicalSort (depGraph tasks) = .ok sorted) :
    ∀ ch, IsChain tasks ch → chainWeight tasks ch ≤ minFinish tasks sorted := by
  rintro ch ⟨hne, hmem, hch⟩
  have hspec := (fwdTiming_spec hnd hkn hdur hac hok).2
  set j := ch.getLast hne with hj
  have hjlast : ch.getLast? = some j := List.getLast?_eq_getLast ch hne
  have hjch : j ∈ ch := List.getLast_mem hne
  rcases List.mem_map.mp (hmem j hjch) with ⟨t, ht, htid⟩
  rcases hspec t ht with ⟨v, hv, -, hbest, hub⟩
  have hchain : ChainEnd tasks ch t.id := ⟨⟨hne, hmem, hch⟩, by rw [htid]; exact hjlast⟩
  exact le_trans (hbest.2 ch hchain) hub

/-- `min_finish_time` is itself the weight of some dependency chain. -/
theorem minFinish_attained {tasks : List PTask} (hne : tasks ≠ [])
    (hnd : (tasks.map (fun t => t.id)).Nodup)
    (hkn : KnownDeps (depGraph tasks))
    (hdur : ∀ t ∈ tasks, 0 ≤ t.duration)
    (hac : Acyclic (depGraph tasks))
    {sorted : List Nat}
    (hok : topologicalSort (depGraph tasks) = .ok sorted) :
    ∃ ch, IsChain tasks ch ∧ chainWeight tasks ch = minFinish tasks sorted := by
  rcases minFinish_entry hne hnd hkn hdur hac hok with ⟨t, ht, v, hv, hef⟩
  rcases (fwdTiming_spec hnd hkn hdur hac hok).2 t ht with ⟨v2, hv2, -, hbest, -⟩
  have hvv : v2 = v := by
    have := hv2.symm.trans hv
    simpa using this
  rcases hbest.1 with ⟨ch, hch, hw⟩
  exact ⟨ch, hch.1, by rw [hw, hvv, hef]⟩

/-! ## Properties of the reversed graph -/

theorem rev_known {tasks : List PTask} {rev : Graph}
    (hnd : (tasks.map (fun t => t.id)).Nodup)
    (hk : rev.map (fun e => e.1) = tasks.map (fun t => t.id))
    (hmm : ∀ p cs, alookup rev p = some cs →
      ∀ j, (j ∈ cs ↔ ∃ t ∈ tasks, t.id = j ∧ p ∈ t.deps)) :
    KnownDeps rev := by
  intro e he d hd
  have hlk : alookup rev e.1 = some e.2 :=
    alookup_of_mem_nodup (by rw [hk]; exact hnd) he
  rcases (hmm e.1 e.2 hlk d).mp hd with ⟨t, ht, htid, -⟩
  rw [hk, ← htid]
  exact List.mem_map_of_mem (fun t => t.id) ht

theorem rev_edge {tasks : List PTask} {rev : Graph}
    (hnd : (tasks.map (fun t => t.id)).Nodup)
    (hk : rev.map (fun e => e.1) = tasks.map (fun t => t.id))
    (hmm : ∀ p cs, alookup rev p = some cs →
      ∀ j, (j ∈ cs ↔ ∃ t ∈ tasks, t.id = j ∧ p ∈ t.deps))
    {a b : Nat} (h : Edge rev a b) : TaskDep tasks b a := by
  rcases h with ⟨cs, hcs, ha⟩
  have hlk : alookup rev b = some cs :=
    alookup_of_mem_nodup (l := rev) (by rw [hk]; exact hnd) (e := (b, cs)) hcs
  exact (hmm b cs hlk a).mp ha

theorem taskDep_edge {tasks : List PTask} {a b : Nat}
    (h : TaskDep tasks a b) : Edge (depGraph tasks) a b := by
  rcases h with ⟨t, ht, htid, ha⟩
  exact ⟨t.deps, by
    rw [← htid]
    exact List.mem_map_of_mem (fun t => (t.id, t.deps)) ht, ha⟩

theorem rev_acyclic {tasks : List PTask} {rev : Graph}
    (hnd : (tasks.map (fun t => t.id)).Nodup)
    (hac : Acyclic (depGraph tasks))
    (hk : rev.map (fun e => e.1) = tasks.map (fun t => t.id))
    (hmm : ∀ p cs, alookup rev p = some cs →
      ∀ j, (j ∈ cs ↔ ∃ t ∈ tasks, t.id = j ∧ p ∈ t.deps)) :
    Acyclic rev := by
  intro i hcon
  have hmono : Relation.TransGen (Function.swap (Edge (depGraph tasks))) i i :=
    Relation.TransGen.mono
      (fun a b h => taskDep_edge (rev_edge hnd hk hmm h)) hcon
  exact hac i (Relation.transGen_swap.mp hmono)

theorem except_bind_ok {α β : Type} {x : Except PyErr α} {a : α}
    (h : x = .ok a) (f : α → Except PyErr β) : (x >>= f) = f a := by
  rw [h]
  rfl

/-- On distinct-id, known-dependency, acyclic input, `CriticalPathAnalysis`
runs to completion: both sorts succeed, the reversed graph builds, and the
result is the backward timing dict with `min_finish_time`. -/
theorem cpa_pipeline {tasks : List PTask} (hne : tasks ≠ [])
    (hnd : (tasks.map (fun t => t.id)).Nodup)
    (hkn : KnownDeps (depGraph tasks))
    (hac : Acyclic (depGraph tasks)) :
    ∃ sorted rev bsorted,
      topologicalSort (depGraph tasks) = .ok sorted ∧
      buildReversed tasks = .ok rev ∧
      topologicalSort rev = .ok bsorted ∧
      rev.map (fun e => e.1) = tasks.map (fun t => t.id) ∧
      (∀ p cs, alookup rev p = some cs →
        ∀ j, (j ∈ cs ↔ ∃ t ∈ tasks, t.id = j ∧ p ∈ t.deps)) ∧
      cpa tasks = .ok ⟨bwdTiming tasks sorted bsorted rev, minFinish tasks sorted⟩ := by
  have hgnd : ((depGraph tasks).map (fun x => x.1)).Nodup := by
    rw [depGraph_keys]; exact hnd
  rcases dispatch_ok_of_acyclic _ headD_mem _ hgnd hkn hac with ⟨sorted, hsort⟩
  rcases buildReversed_ok hkn with ⟨rev, hrev, hrk, hrmm⟩
  have hrnd : (rev.map (fun e => e.1)).Nodup := by rw [hrk]; exact hnd
  rcases dispatch_ok_of_acyclic _ headD_mem rev hrnd
    (rev_known hnd hrk hrmm) (rev_acyclic hnd hac hrk hrmm) with ⟨bsorted, hbsort⟩
  refine ⟨sorted, rev, bsorted, hsort, hrev, hbsort, hrk, hrmm, ?_⟩
  have hsort2 : topologicalSort (depGraph tasks) = .ok sorted := hsort
  have hbsort2 : topologicalSort rev = .ok bsorted := hbsort
  have hne2 : fwdTiming tasks sorted ≠ [] := by
    intro hc
    apply hne
    have h2 := forward_fold_keys tasks (depGraph tasks) sorted
      (tasks.map (fun t => (t.id, Timing.zero)))
    rw [show List.foldl (forwardStep tasks (depGraph tasks))
        (List.map (fun t => (t.id, Timing.zero)) tasks) sorted
        = fwdTiming tasks sorted from rfl, hc] at h2
    have h3 : tasks.map (fun t => t.id) = [] := by
      have h4 : (tasks.map (fun t => (t.id, Timing.zero))).map (fun e => e.1)
          = tasks.map (fun t => t.id) := by
        simp [List.map_map, Function.comp]
      rw [← h4, ← h2]
      rfl
    exact List.map_eq_nil_iff.mp h3
  have hito : (fwdTiming tasks sorted).isEmpty = false := by
    cases hft : fwdTiming tasks sorted with
    | nil => exact absurd hft hne2
    | cons a l => rfl
  simp only [cpa]
  rw [except_bind_ok hsort2]
  rw [show List.foldl (forwardStep tasks (depGraph tasks))
      (List.map (fun t => (t.id, Timing.zero)) tasks) sorted
      = fwdTiming tasks sorted from rfl]
  rw [hito]
  simp only [Bool.false_eq_true, if_false]
  rw [except_bind_ok hrev, except_bind_ok hbsort2]
  rfl


/-- C3: on a non-empty collection with distinct ids, known dependency ids,
non-negative durations and an acyclic dependency graph,
`CriticalPathAnalysis` succeeds and its `min_finish_time` equals the length
of the longest duration-weighted dependency chain: some chain attains it
and it bounds every chain. -/
theorem c3_min_finish_longest_path (tasks : List PTask) (hne : tasks ≠ [])
    (hnd : (tasks.map (fun t => t.id)).Nodup)
    (hkn : KnownDeps (depGraph tasks))
    (hdur : ∀ t ∈ tasks, 0 ≤ t.duration)
    (hac : Acyclic (depGraph tasks)) :
    ∃ c, cpa tasks = .ok c ∧
      (∃ ch, IsChain tasks ch ∧ chainWeight tasks ch = c.minFinish) ∧
      (∀ ch, IsChain tasks ch → chainWeight tasks ch ≤ c.minFinish) := by
  rcases cpa_pipeline hne hnd hkn hac with
    ⟨sorted, rev, bsorted, hsort, -, -, -, -, hcpa⟩
  exact ⟨_, hcpa, minFinish_attained hne hnd hkn hdur hac hsort,
    chain_le_minFinish hnd hkn hdur hac hsort⟩

/-- C3 (witness): the longest-path characterisation applied to the sample
collection, whose `min_finish_time` is 9. -/
theorem c3_longest_path_witness :
    ∃ c, cpa sample5 = .ok c ∧
      (∃ ch, IsChain sample5 ch ∧ chainWeight sample5 ch = c.minFinish) ∧
      (∀ ch, IsChain sample5 ch → chainWeight sample5 ch ≤ c.minFinish) :=
  c3_min_finish_longest_path sample5 (by decide) (by decide) (by decide)
    (by decide) (acyclic_of_lt _ (by decide))

/-! ## The backward pass -/

/-- If `ti` is a dependency of `tc`, `tc`'s longest-chain value exceeds
`ti`'s by at least `tc`'s duration. -/
theorem bestEF_dep_le {tasks : List PTask}
    (hnd : (tasks.map (fun t => t.id)).Nodup)
    {ti tc : PTask} (hti : ti ∈ tasks) (htc : tc ∈ tasks)
    (hdep : ti.id ∈ tc.deps) {vi vc : Int}
    (hbi : BestEF tasks ti.id vi) (hbc : BestEF tasks tc.id vc) :
    vi + tc.duration ≤ vc := by
  obtain ⟨⟨c, hc, hw⟩, -⟩ := hbi
  have hch2 : ChainEnd tasks (c ++ [tc.id]) tc.id :=
    chainEnd_snoc hc ⟨tc, htc, rfl, hdep⟩
      (List.mem_map_of_mem (fun t => t.id) htc)
  have h2 := hbc.2 _ hch2
  rw [chainWeight_snoc, taskMapD_of_mem hnd htc, hw] at h2
  exact h2

/-- Split a list at its first element satisfying `P`. -/
theorem exists_first_split {α : Type} (P : α → Prop) :
    ∀ l : List α, (∃ x ∈ l, P x) →
      ∃ l₁ x l₂, l = l₁ ++ x :: l₂ ∧ P x ∧ ∀ y ∈ l₁, ¬ P y := by
  intro l
  induction l with
  | nil =>
    rintro ⟨x, hx, -⟩
    simp at hx
  | cons a l ih =>
    intro h
    by_cases hPa : P a
    · exact ⟨[], a, l, rfl, hPa, by simp⟩
    · have h2 : ∃ x ∈ l, P x := by
        rcases h with ⟨x, hx, hPx⟩
        rcases List.mem_cons.mp hx with h | h
        · exact absurd (h ▸ hPx) hPa
        · exact ⟨x, h, hPx⟩
      rcases ih h2 with ⟨l₁, x, l₂, heq, hPx, hnone⟩
      refine ⟨a :: l₁, x, l₂, by rw [heq]; rfl, hPx, ?_⟩
      intro y hy
      rcases List.mem_cons.mp hy with h | h
      · exact h ▸ hPa
      · exact hnone y h

/-- A member of a defaulted reversed-graph entry names the entry itself. -/
theorem alookupD_rev_mem {rev : Graph} {u c : Nat}
    (hc : c ∈ alookupD rev u []) : (u, alookupD rev u []) ∈ rev := by
  match hl : alookup rev u with
  | none => simp [alookupD, hl] at hc
  | some cs0 =>
    have h2 : alookupD rev u [] = cs0 := by simp [alookupD, hl]
    rw [h2]
    exact alookup_mem hl

/-- A member of a reversed-graph entry is a task that depends on the
entry's key. -/
theorem rev_child_task {tasks : List PTask} {rev : Graph}
    (hrmm : ∀ p cs, alookup rev p = some cs →
      ∀ j, (j ∈ cs ↔ ∃ t ∈ tasks, t.id = j ∧ p ∈ t.deps))
    {u c : Nat} (hc : c ∈ alookupD rev u []) :
    ∃ tc ∈ tasks, tc.id = c ∧ u ∈ tc.deps := by
  match hl : alookup rev u with
  | none => simp [alookupD, hl] at hc
  | some cs0 =>
    have hc0 : c ∈ cs0 := by
      have h2 : alookupD rev u [] = cs0 := by simp [alookupD, hl]
      rwa [h2] at hc
    exact (hrmm u cs0 hl c).mp hc0

/-- Invariant of the backward pass: keys are the task ids; earliest times
keep their forward-pass values; processed ids carry
`latest_finish = min(latest_start of dependents, default min_finish_time)`
and `latest_start = latest_finish - duration`, with
`earliest_finish ≤ latest_finish ≤ min_finish_time`; unprocessed ids still
hold their forward-pass timing. -/
def BwdInv (tasks : List PTask) (rev : Graph) (mf : Int)
    (tm1 : List (Nat × Timing)) (done : List Nat)
    (tm : List (Nat × Timing)) : Prop :=
  tm.map (fun e => e.1) = tasks.map (fun t => t.id) ∧
  ∀ t ∈ tasks, ∃ v1 v, alookup tm1 t.id = some v1 ∧ alookup tm t.id = some v ∧
    v.es = v1.es ∧ v.ef = v1.ef ∧
    (t.id ∉ done → v = v1) ∧
    (t.id ∈ done →
      v.lf = pyMinD ((alookupD rev t.id []).map
        (fun c => (alookupD tm c Timing.zero).ls)) mf ∧
      v.ls = v.lf - t.duration ∧ v.ef ≤ v.lf ∧ v.lf ≤ mf)

theorem bwdInv_step {tasks : List PTask} {rev : Graph} {mf : Int}
    {tm1 : List (Nat × Timing)}
    (hnd : (tasks.map (fun t => t.id)).Nodup)
    (hdur : ∀ t ∈ tasks, 0 ≤ t.duration)
    (hfv : ∀ t ∈ tasks, ∃ v1, alookup tm1 t.id = some v1 ∧
      v1.ef = v1.es + t.duration ∧ BestEF tasks t.id v1.ef ∧ v1.ef ≤ mf)
    (hrmm : ∀ p cs, alookup rev p = some cs →
      ∀ j, (j ∈ cs ↔ ∃ t ∈ tasks, t.id = j ∧ p ∈ t.deps))
    {done : List Nat} {tm : List (Nat × Timing)} {ti : PTask} (hti : ti ∈ tasks)
    (hnotdone : ti.id ∉ done)
    (hchdone : ∀ c ∈ alookupD rev ti.id [], c ∈ done)
    (hchprev : ∀ u ∈ done, ∀ c ∈ alookupD rev u [], c ∈ done)
    (hInv : BwdInv tasks rev mf tm1 done tm) :
    BwdInv tasks rev mf tm1 (done ++ [ti.id])
      (backwardStep tasks rev mf tm ti.id) := by
  obtain ⟨hkeys, hlk⟩ := hInv
  rcases hlk ti hti with ⟨v1, v, hv1, hv, hves, hvef, hvnd, -⟩
  have htm : taskMapD tasks ti.id = ti := taskMapD_of_mem hnd hti
  have hcur : alookupD tm ti.id Timing.zero = v := by simp [alookupD, hv]
  set LF := pyMinD ((alookupD rev ti.id []).map
    (fun c => (alookupD tm c Timing.zero).ls)) mf with hLF
  have hstep : backwardStep tasks rev mf tm ti.id
      = aset tm ti.id ⟨v.es, v.ef, LF - ti.duration, LF⟩ := by
    rw [hLF]
    simp only [backwardStep, htm, hcur]
  have hchild : ∀ c ∈ alookupD rev ti.id [],
      v1.ef ≤ (alookupD tm c Timing.zero).ls ∧
      (alookupD tm c Timing.zero).ls ≤ mf := by
    intro c hc
    rcases rev_child_task hrmm hc with ⟨tc, htc, htcid, hdep⟩
    have hcdone : tc.id ∈ done := by rw [htcid]; exact hchdone c hc
    rcases hlk tc htc with ⟨w1, w, hw1, hw, hwes, hwef, -, hwdone⟩
    rcases hwdone hcdone with ⟨-, hwls, hweflf, hwlf⟩
    have hlkc : alookupD tm c Timing.zero = w := by
      rw [← htcid]
      simp [alookupD, hw]
    rcases hfv tc htc with ⟨u1, hu1, -, hubest, -⟩
    have hu1w1 : u1 = w1 := by
      have h3 := hu1.symm.trans hw1
      simpa using h3
    rcases hfv ti hti with ⟨z1, hz1, -, hzbest, -⟩
    have hz1v1 : z1 = v1 := by
      have h3 := hz1.symm.trans hv1
      simpa using h3
    have hle := bestEF_dep_le hnd hti htc hdep hzbest hubest
    rw [hz1v1, hu1w1] at hle
    have hdc := hdur tc htc
    rw [hlkc, hwls]
    constructor
    · omega
    · omega
  have hlf_ub : v1.ef ≤ LF := by
    rcases hfv ti hti with ⟨z1, hz1, -, -, hzub⟩
    have hz1v1 : z1 = v1 := by
      have h3 := hz1.symm.trans hv1
      simpa using h3
    rw [hz1v1] at hzub
    rw [hLF]
    cases hcc : (alookupD rev ti.id []) with
    | nil => simpa [pyMinD] using hzub
    | cons c0 cs0 =>
      have hmm2 : pyMinD ((c0 :: cs0).map
            (fun c => (alookupD tm c Timing.zero).ls)) mf
          ∈ (c0 :: cs0).map (fun c => (alookupD tm c Timing.zero).ls) :=
        pyMinD_mem (by simp) mf
      rcases List.mem_map.mp hmm2 with ⟨cstar, hcstar, hls⟩
      rw [← hls]
      exact (hchild cstar (by rw [hcc]; exact hcstar)).1
  have hlf_mf : LF ≤ mf := by
    rw [hLF]
    cases hcc : (alookupD rev ti.id []) with
    | nil => simp [pyMinD]
    | cons c0 cs0 =>
      have hmm2 : pyMinD ((c0 :: cs0).map
            (fun c => (alookupD tm c Timing.zero).ls)) mf
          ∈ (c0 :: cs0).map (fun c => (alookupD tm c Timing.zero).ls) :=
        pyMinD_mem (by simp) mf
      rcases List.mem_map.mp hmm2 with ⟨cstar, hcstar, hls⟩
      rw [← hls]
      exact (hchild cstar (by rw [hcc]; exact hcstar)).2
  rw [hstep]
  refine ⟨by rw [aset_keys]; exact hkeys, ?_⟩
  intro t ht
  by_cases hui : t.id = ti.id
  · have ht_ti : ti = t := (task_id_unique hnd ht hti hui).symm
    subst ht_ti
    refine ⟨v1, ⟨v.es, v.ef, LF - ti.duration, LF⟩, hv1, ?_, hves, hvef, ?_, ?_⟩
    · rw [alookup_aset, if_pos rfl, hv]
      rfl
    · intro hcon
      exact absurd (List.mem_append_right _ (by simp)) hcon
    · intro _
      refine ⟨?_, rfl, ?_, hlf_mf⟩
      · have hmapeq : (alookupD rev ti.id []).map
            (fun c => (alookupD
              (aset tm ti.id ⟨v.es, v.ef, LF - ti.duration, LF⟩)
              c Timing.zero).ls)
            = (alookupD rev ti.id []).map
              (fun c => (alookupD tm c Timing.zero).ls) := by
          refine List.map_congr_left ?_
          intro c hc
          have hcd : c ∈ done := hchdone c hc
          have hne2 : c ≠ ti.id := fun hcon => hnotdone (hcon ▸ hcd)
          simp only [alookupD]
          rw [alookup_aset, if_neg hne2]
        show LF = _
        rw [hmapeq]
      · show v.ef ≤ LF
        rw [hvef]
        exact hlf_ub
  · rcases hlk t ht with ⟨w1, w, hw1, hw, hwes, hwef, hwnd, hwdone⟩
    refine ⟨w1, w, hw1, ?_, hwes, hwef, ?_, ?_⟩
    · rw [alookup_aset, if_neg hui]
      exact hw
    · intro hcon
      refine hwnd ?_
      intro hcon2
      exact hcon (List.mem_append_left _ hcon2)
    · intro hmem
      have hmem2 : t.id ∈ done := by
        rcases List.mem_append.mp hmem with h | h
        · exact h
        · exact absurd (by simpa using h) hui
      rcases hwdone hmem2 with ⟨hwlf, hwls, hweflf, hwlfmf⟩
      refine ⟨?_, hwls, hweflf, hwlfmf⟩
      rw [hwlf]
      have hmapeq : (alookupD rev t.id []).map
          (fun c => (alookupD
            (aset tm ti.id ⟨v.es, v.ef, LF - ti.duration, LF⟩)
            c Timing.zero).ls)
          = (alookupD rev t.id []).map
            (fun c => (alookupD tm c Timing.zero).ls) := by
        refine List.map_congr_left ?_
        intro c hc
        have hcd : c ∈ done := hchprev t.id hmem2 c hc
        have hne2 : c ≠ ti.id := fun hcon => hnotdone (hcon ▸ hcd)
        simp only [alookupD]
        rw [alookup_aset, if_neg hne2]
      rw [hmapeq]


theorem bwdInv_fold {tasks : List PTask} {rev : Graph} {mf : Int}
    {tm1 : List (Nat × Timing)}
    (hnd : (tasks.map (fun t => t.id)).Nodup)
    (hdur : ∀ t ∈ tasks, 0 ≤ t.duration)
    (hfv : ∀ t ∈ tasks, ∃ v1, alookup tm1 t.id = some v1 ∧
      v1.ef = v1.es + t.duration ∧ BestEF tasks t.id v1.ef ∧ v1.ef ≤ mf)
    (hrk : rev.map (fun e => e.1) = tasks.map (fun t => t.id))
    (hrmm : ∀ p cs, alookup rev p = some cs →
      ∀ j, (j ∈ cs ↔ ∃ t ∈ tasks, t.id = j ∧ p ∈ t.deps))
    (hrac : Acyclic rev)
    {bsorted : List Nat} (hbok : topologicalSort rev = .ok bsorted)
    (hkeys1 : tm1.map (fun e => e.1) = tasks.map (fun t => t.id)) :
    BwdInv tasks rev mf tm1 bsorted
      (bsorted.foldl (backwardStep tasks rev mf) tm1) := by
  have hrnd : (rev.map (fun e => e.1)).Nodup := by rw [hrk]; exact hnd
  have hperm : bsorted.Perm (tasks.map (fun t => t.id)) := by
    have h2 := dispatch_perm _ _ hrnd bsorted hbok
    rwa [hrk] at h2
  have hsnd : bsorted.Nodup := hperm.nodup_iff.mpr hnd
  have hpw := dispatch_pairwise _ headD_mem _ hrnd bsorted hbok
  have hcs_ids : ∀ u c, c ∈ alookupD rev u [] → c ∈ bsorted := by
    intro u c hc
    rcases rev_child_task hrmm hc with ⟨tc, htc, htcid, -⟩
    refine hperm.mem_iff.mpr ?_
    rw [← htcid]
    exact List.mem_map_of_mem (fun t => t.id) htc
  suffices H : ∀ rest done tm, bsorted = done ++ rest →
      BwdInv tasks rev mf tm1 done tm →
      BwdInv tasks rev mf tm1 bsorted
        (rest.foldl (backwardStep tasks rev mf) tm) by
    refine H bsorted [] tm1 rfl ⟨hkeys1, ?_⟩
    intro t ht
    rcases hfv t ht with ⟨v1, hv1, -, -, -⟩
    exact ⟨v1, v1, hv1, hv1, rfl, rfl, fun _ => rfl,
      fun hc => absurd hc (List.not_mem_nil _)⟩
  intro rest
  induction rest with
  | nil =>
    intro done tm hsplit hInv
    have hds2 : done = bsorted := by rw [hsplit]; simp
    rw [List.foldl_nil, ← hds2]
    exact hInv
  | cons i rest ih =>
    intro done tm hsplit hInv
    have hib : i ∈ bsorted := by rw [hsplit]; simp
    have hiids : i ∈ tasks.map (fun t => t.id) := hperm.mem_iff.mp hib
    rcases List.mem_map.mp hiids with ⟨ti, hti, htiid⟩
    subst htiid
    have hnotdone : ti.id ∉ done := by
      have hn2 := hsnd
      rw [hsplit] at hn2
      rcases List.nodup_append.mp hn2 with ⟨-, -, hdisj⟩
      intro hcon
      exact hdisj hcon (by simp)
    have hpw2 := hpw
    rw [hsplit] at hpw2
    have hcross := (List.pairwise_append.mp hpw2).2.2
    have hsuffpw := (List.pairwise_append.mp hpw2).2.1
    have hhead := (List.pairwise_cons.mp hsuffpw).1
    have hchdone : ∀ c ∈ alookupD rev ti.id [], c ∈ done := by
      intro c hc
      have hcb : c ∈ bsorted := hcs_ids ti.id c hc
      rw [hsplit] at hcb
      rcases List.mem_append.mp hcb with h | h
      · exact h
      · exfalso
        rcases List.mem_cons.mp h with h | h
        · refine hrac ti.id (Relation.TransGen.single
            ⟨alookupD rev ti.id [], alookupD_rev_mem hc, ?_⟩)
          exact h ▸ hc
        · exact hhead c h _ (alookupD_rev_mem hc) hc
    have hchprev : ∀ u ∈ done, ∀ c ∈ alookupD rev u [], c ∈ done := by
      intro u hu c hc
      have hcb : c ∈ bsorted := hcs_ids u c hc
      rw [hsplit] at hcb
      rcases List.mem_append.mp hcb with h | h
      · exact h
      · exact absurd hc (hcross u hu c h _ (alookupD_rev_mem hc))
    rw [List.foldl_cons]
    refine ih (done ++ [ti.id]) _ (by rw [hsplit, List.append_cons])
      (bwdInv_step hnd hdur hfv hrmm hti hnotdone hchdone hchprev hInv)

/-- C7: on a non-empty collection with distinct ids, known dependency ids,
non-negative durations and an acyclic dependency graph, the completed
analysis gives every task `earliest_start ≤ latest_start` and
`earliest_finish ≤ latest_finish`, and some task has slack 0. -/
theorem c7_slack_nonneg_critical (tasks : List PTask) (hne : tasks ≠ [])
    (hnd : (tasks.map (fun t => t.id)).Nodup)
    (hkn : KnownDeps (depGraph tasks))
    (hdur : ∀ t ∈ tasks, 0 ≤ t.duration)
    (hac : Acyclic (depGraph tasks)) :
    ∃ c, cpa tasks = .ok c ∧
      (∀ t ∈ tasks, ∃ v, alookup c.timing t.id = some v ∧
        v.es ≤ v.ls ∧ v.ef ≤ v.lf) ∧
      (∃ t ∈ tasks, ∃ v, alookup c.timing t.id = some v ∧ v.slack = 0) := by
  rcases cpa_pipeline hne hnd hkn hac with
    ⟨sorted, rev, bsorted, hsort, hrev, hbsort, hrk, hrmm, hcpa⟩
  have hfs := fwdTiming_spec hnd hkn hdur hac hsort
  have hrac := rev_acyclic hnd hac hrk hrmm
  have hBI := bwdInv_fold hnd hdur hfs.2 hrk hrmm hrac hbsort hfs.1
  have hrnd : (rev.map (fun e => e.1)).Nodup := by rw [hrk]; exact hnd
  have hperm : bsorted.Perm (tasks.map (fun t => t.id)) := by
    have h2 := dispatch_perm _ _ hrnd bsorted hbsort
    rwa [hrk] at h2
  refine ⟨_, hcpa, ?_, ?_⟩
  · intro t ht
    rcases hBI.2 t ht with ⟨v1, v, hv1, hv, hves, hvef, -, hvdone⟩
    have htb : t.id ∈ bsorted :=
      hperm.mem_iff.mpr (List.mem_map_of_mem (fun t => t.id) ht)
    rcases hvdone htb with ⟨-, hvls, hveflf, -⟩
    rcases hfs.2 t ht with ⟨z1, hz1, hzef, -, -⟩
    have hz1v1 : z1 = v1 := by
      have h3 := hz1.symm.trans hv1
      simpa using h3
    rw [hz1v1] at hzef
    refine ⟨v, hv, ?_, hveflf⟩
    omega
  · rcases minFinish_entry hne hnd hkn hdur hac hsort with ⟨t0, ht0, v0, hv0, hef0⟩
    have hP0 : ∃ j ∈ bsorted,
        (alookupD (fwdTiming tasks sorted) j Timing.zero).ef
          = minFinish tasks sorted :=
      ⟨t0.id, hperm.mem_iff.mpr (List.mem_map_of_mem (fun t => t.id) ht0),
        by simp [alookupD, hv0, hef0]⟩
    rcases exists_first_split _ bsorted hP0 with ⟨pre, i, suf, hsplit, hPi, hpre⟩
    have hib : i ∈ bsorted := by rw [hsplit]; simp
    rcases List.mem_map.mp (hperm.mem_iff.mp hib) with ⟨ti, hti, htiid⟩
    have hz1ef : ∀ z1, alookup (fwdTiming tasks sorted) ti.id = some z1 →
        z1.ef = minFinish tasks sorted := by
      intro z1 hz1
      have h3 := hPi
      rw [← htiid] at h3
      rw [alookupD, hz1] at h3
      simpa using h3
    have hpw := dispatch_pairwise _ headD_mem _ hrnd bsorted hbsort
    have hnochild : ∀ c, c ∈ alookupD rev ti.id [] → False := by
      intro c hc
      rcases rev_child_task hrmm hc with ⟨tc, htc, htcid, hdep⟩
      rcases hfs.2 tc htc with ⟨w1, hw1, -, hwbest, hwub⟩
      rcases hfs.2 ti hti with ⟨z1, hz1, -, hzbest, -⟩
      have hz1mf := hz1ef z1 hz1
      have hle := bestEF_dep_le hnd hti htc hdep hzbest hwbest
      have hdc := hdur tc htc
      have hwef_mf : w1.ef = minFinish tasks sorted := by omega
      have hPc : (alookupD (fwdTiming tasks sorted) c Timing.zero).ef
          = minFinish tasks sorted := by
        rw [← htcid]
        simp [alookupD, hw1, hwef_mf]
      have hcb : c ∈ bsorted := by
        refine hperm.mem_iff.mpr ?_
        rw [← htcid]
        exact List.mem_map_of_mem (fun t => t.id) htc
      rw [hsplit] at hcb
      rcases List.mem_append.mp hcb with h | h
      · exact hpre c h hPc
      · rcases List.mem_cons.mp h with h | h
        · refine hrac ti.id (Relation.TransGen.single
            ⟨alookupD rev ti.id [], alookupD_rev_mem hc, ?_⟩)
          have hci : c = ti.id := h.trans htiid.symm
          exact hci ▸ hc
        · have hpw2 := hpw
          rw [hsplit] at hpw2
          have hx := (List.pairwise_cons.mp (List.pairwise_append.mp hpw2).2.1).1 c h
          rw [← htiid] at hx
          exact hx _ (alookupD_rev_mem hc) hc
    have hcsnil : alookupD rev ti.id [] = [] := by
      cases hcc : alookupD rev ti.id [] with
      | nil => rfl
      | cons c cs =>
        exact absurd (show c ∈ alookupD rev ti.id [] by rw [hcc]; simp)
          (fun hh => hnochild c hh)
    rcases hBI.2 ti hti with ⟨v1, v, hv1, hv, hves, hvef, -, hvdone⟩
    have htib : ti.id ∈ bsorted := by rw [htiid]; exact hib
    rcases hvdone htib with ⟨hvlf, hvls, -, -⟩
    rw [hcsnil] at hvlf
    simp only [List.map_nil, pyMinD] at hvlf
    rcases hfs.2 ti hti with ⟨z1, hz1, hzef, -, -⟩
    have hz1v1 : z1 = v1 := by
      have h3 := hz1.symm.trans hv1
      simpa using h3
    have hz1mf := hz1ef z1 hz1
    rw [hz1v1] at hzef hz1mf
    refine ⟨ti, hti, v, hv, ?_⟩
    simp only [Timing.slack]
    omega

/-- C7 (witness): slack non-negativity and a slack-0 task on the sample
collection. -/
theorem c7_slack_witness :
    ∃ c, cpa sample5 = .ok c ∧
      (∀ t ∈ sample5, ∃ v, alookup c.timing t.id = some v ∧
        v.es ≤ v.ls ∧ v.ef ≤ v.lf) ∧
      (∃ t ∈ sample5, ∃ v, alookup c.timing t.id = some v ∧ v.slack = 0) :=
  c7_slack_nonneg_critical sample5 (by decide) (by decide) (by decide)
    (by decide) (acyclic_of_lt _ (by decide))


/-! ## Which errors each stage can raise (for the cycle-error claim) -/

theorem except_bind_error {α β : Type} (e : PyErr) (f : α → Except PyErr β) :
    ((Except.error e : Except PyErr α) >>= f) = .error e := rfl

theorem except_pure_ne_error {α : Type} (a : α) (e : PyErr) :
    (pure a : Except PyErr α) ≠ .error e :=
  fun h => Except.noConfusion (show Except.ok a = Except.error e from h)

/-- Inverting an errored bind. -/
theorem bind_error_inv {α β : Type} {x : Except PyErr α}
    {f : α → Except PyErr β} {e : PyErr}
    (h : (x >>= f) = .error e) :
    x = .error e ∨ ∃ a, x = .ok a ∧ f a = .error e := by
  match x with
  | .ok a =>
    rw [except_bind_ok rfl f] at h
    exact Or.inr ⟨a, rfl, h⟩
  | .error e2 =>
    rw [except_bind_error e2 f] at h
    refine Or.inl ?_
    rw [Except.error.inj h]

theorem foldlM_ne_cycle {α β : Type} (f : β → α → Except PyErr β)
    (hf : ∀ b a, f b a ≠ .error .cycleDetected) :
    ∀ (l : List α) (b : β), l.foldlM f b ≠ .error .cycleDetected := by
  intro l
  induction l with
  | nil =>
    intro b h
    rw [List.foldlM_nil] at h
    exact Except.noConfusion h
  | cons a l ih =>
    intro b h
    rw [List.foldlM_cons] at h
    rcases bind_error_inv h with h2 | ⟨b2, -, h2⟩
    · exact hf b a h2
    · exact ih b2 h2

/-- The shared assignment step raises only the empty-`min` error. -/
theorem assignStep_ne_cycle (tasks : List PTask) (st : AssignState) (i : Nat) :
    assignStep tasks st i ≠ .error .cycleDetected := by
  simp only [assignStep]
  cases h : st.avail.enum with
  | nil => simp
  | cons p rest => simp

/-- `CriticalPathScheduler`'s assignment step raises only the empty-`min`
error. -/
theorem cpsAssignStep_ne_cycle (tasks : List PTask) (r : Nat)
    (st : AssignState) (i : Nat) :
    cpsAssignStep tasks r st i ≠ .error .cycleDetected := by
  simp only [cpsAssignStep]
  cases h : st.avail.enum with
  | nil => simp
  | cons p rest => simp

theorem assignResources_ne_cycle (tasks : List PTask) (seq : List Nat) (r : Nat) :
    assignResources tasks seq r ≠ .error .cycleDetected := by
  intro h
  simp only [assignResources] at h
  rcases bind_error_inv h with h2 | ⟨st, -, h2⟩
  · exact foldlM_ne_cycle _ (fun b a => assignStep_ne_cycle tasks b a) seq _ h2
  · exact except_pure_ne_error _ _ h2

/-- `CriticalPathAnalysis` never reports a cycle on distinct-id,
known-dependency, acyclic input (on the empty collection it raises the
empty-`max` error instead). -/
theorem cpa_ne_cycle {tasks : List PTask}
    (hnd : (tasks.map (fun t => t.id)).Nodup)
    (hkn : KnownDeps (depGraph tasks))
    (hac : Acyclic (depGraph tasks)) :
    cpa tasks ≠ .error .cycleDetected := by
  by_cases hne : tasks = []
  · subst hne
    intro h
    have h2 : (Except.error PyErr.emptyMaxArg : Except PyErr CPAResult)
        = .error .cycleDetected := h
    exact PyErr.noConfusion (Except.error.inj h2)
  · rcases cpa_pipeline hne hnd hkn hac with
      ⟨sorted, rev, bsorted, -, -, -, -, -, hcpa⟩
    rw [hcpa]
    exact fun hcon => Except.noConfusion hcon

/-- The heuristic factory either yields a ready-list-respecting chooser or
propagates a `CriticalPathAnalysis` error. -/
theorem createHeuristic_cases (tasks : List PTask) (h : HeuristicType) :
    (∃ choose, createHeuristic tasks h = .ok choose ∧
      ∀ l : List Nat, l ≠ [] → choose l ∈ l) ∨
    (∃ e, createHeuristic tasks h = .error e ∧ cpa tasks = .error e) := by
  cases h with
  | minSlack =>
    simp only [createHeuristic]
    match hc : cpa tasks with
    | .ok c => exact Or.inl ⟨minSlackChoose c, rfl, minSlackChoose_mem c⟩
    | .error e => exact Or.inr ⟨e, rfl, rfl⟩
  | nextLongest =>
    exact Or.inl ⟨nextLongestChoose tasks, rfl, nextLongestChoose_mem tasks⟩

theorem scheduleTasks_ne_cycle {tasks : List PTask}
    (hnd : (tasks.map (fun t => t.id)).Nodup)
    (hkn : KnownDeps (depGraph tasks))
    (hac : Acyclic (depGraph tasks))
    (h : HeuristicType) (r : Nat) :
    scheduleTasks h tasks r ≠ .error .cycleDetected := by
  have hgnd : ((depGraph tasks).map (fun x => x.1)).Nodup := by
    rw [depGraph_keys]; exact hnd
  intro hc0
  simp only [scheduleTasks] at hc0
  rcases bind_error_inv hc0 with h2 | ⟨ch, hch2, h2⟩
  · rcases createHeuristic_cases tasks h with ⟨choose, hch, -⟩ | ⟨e, hch, hcpae⟩
    · rw [hch] at h2
      exact Except.noConfusion h2
    · rw [hch] at h2
      have he := Except.error.inj h2
      rw [he] at hcpae
      exact cpa_ne_cycle hnd hkn hac hcpae
  · rcases createHeuristic_cases tasks h with ⟨choose, hch, hmem⟩ | ⟨e, hch, -⟩
    · have hcheq : ch = choose := Except.ok.inj (hch2.symm.trans hch)
      rw [hcheq] at h2
      rcases bind_error_inv h2 with h3 | ⟨sq, -, h3⟩
      · rcases dispatch_ok_of_acyclic choose hmem _ hgnd hkn hac with ⟨seq, hseq⟩
        have hseq2 : sequenceTasks tasks choose = .ok seq := hseq
        rw [hseq2] at h3
        exact Except.noConfusion h3
      · exact assignResources_ne_cycle tasks sq r h3
    · rw [hch] at hch2
      exact Except.noConfusion hch2

theorem longestFirst_ne_cycle {tasks : List PTask}
    (hnd : (tasks.map (fun t => t.id)).Nodup)
    (hkn : KnownDeps (depGraph tasks))
    (hac : Acyclic (depGraph tasks)) (r : Nat) :
    longestFirstSchedule tasks r ≠ .error .cycleDetected := by
  have hgnd : ((depGraph tasks).map (fun x => x.1)).Nodup := by
    rw [depGraph_keys]; exact hnd
  intro h
  simp only [longestFirstSchedule] at h
  rcases bind_error_inv h with h2 | ⟨sq, -, h2⟩
  · rcases dispatch_ok_of_acyclic _ (nextLongestChoose_mem tasks) _ hgnd hkn hac
      with ⟨seq, hseq⟩
    rw [hseq] at h2
    exact Except.noConfusion h2
  · exact assignResources_ne_cycle tasks sq r h2

theorem cpsSchedule_ne_cycle {tasks : List PTask}
    (hnd : (tasks.map (fun t => t.id)).Nodup)
    (hkn : KnownDeps (depGraph tasks))
    (hac : Acyclic (depGraph tasks)) (r : Nat) :
    cpsSchedule tasks r ≠ .error .cycleDetected := by
  have hgnd : ((depGraph tasks).map (fun x => x.1)).Nodup := by
    rw [depGraph_keys]; exact hnd
  intro h
  simp only [cpsSchedule] at h
  rcases bind_error_inv h with h2 | ⟨c, -, h2⟩
  · exact cpa_ne_cycle hnd hkn hac h2
  · rcases bind_error_inv h2 with h3 | ⟨sq, -, h3⟩
    · rcases dispatch_ok_of_acyclic (cpsChoose c tasks) (cpsChoose_mem c tasks)
        _ hgnd hkn hac with ⟨seq, hseq⟩
      rw [hseq] at h3
      exact Except.noConfusion h3
    · rcases bind_error_inv h3 with h4 | ⟨st, -, h4⟩
      · exact foldlM_ne_cycle _
          (fun b a => cpsAssignStep_ne_cycle tasks r b a) sq _ h4
      · exact except_pure_ne_error _ _ h4

/-- C4: the sequencing loop raises the cycle error exactly when some
reachable working graph is non-empty with no ready id; the two-task cycle
A ↔ B makes the sort, the analysis, and every scheduler raise it; and on
acyclic input with known dependency ids (and the distinct ids of a Python
dict) none of them does. -/
theorem c4_cycle_detection :
    (∀ (choose : List Nat → Nat), (∀ l : List Nat, l ≠ [] → choose l ∈ l) →
      ∀ g : Graph, (dispatch choose g = .error .cycleDetected ↔
        ∃ n, seqIter choose n g ≠ [] ∧
          availableIds (seqIter choose n g) = [])) ∧
    (topologicalSort [(1, [2]), (2, [1])] = .error .cycleDetected ∧
     cpa [⟨1, 1, [2]⟩, ⟨2, 1, [1]⟩] = .error .cycleDetected ∧
     scheduleTasks .minSlack [⟨1, 1, [2]⟩, ⟨2, 1, [1]⟩] 2
       = .error .cycleDetected ∧
     scheduleTasks .nextLongest [⟨1, 1, [2]⟩, ⟨2, 1, [1]⟩] 2
       = .error .cycleDetected ∧
     longestFirstSchedule [⟨1, 1, [2]⟩, ⟨2, 1, [1]⟩] 2
       = .error .cycleDetected ∧
     cpsSchedule [⟨1, 1, [2]⟩, ⟨2, 1, [1]⟩] 2 = .error .cycleDetected) ∧
    (∀ tasks : List PTask, (tasks.map (fun t => t.id)).Nodup →
      KnownDeps (depGraph tasks) → Acyclic (depGraph tasks) →
      topologicalSort (depGraph tasks) ≠ .error .cycleDetected ∧
      cpa tasks ≠ .error .cycleDetected ∧
      (∀ (h : HeuristicType) (r : Nat),
        scheduleTasks h tasks r ≠ .error .cycleDetected) ∧
      (∀ r, longestFirstSchedule tasks r ≠ .error .cycleDetected) ∧
      (∀ r, cpsSchedule tasks r ≠ .error .cycleDetected)) := by
  refine ⟨fun choose hch g => dispatch_cycle_iff choose hch g,
    ⟨rfl, rfl, rfl, rfl, rfl, rfl⟩, ?_⟩
  intro tasks hnd hkn hac
  refine ⟨?_, cpa_ne_cycle hnd hkn hac,
    fun h r => scheduleTasks_ne_cycle hnd hkn hac h r,
    fun r => longestFirst_ne_cycle hnd hkn hac r,
    fun r => cpsSchedule_ne_cycle hnd hkn hac r⟩
  have hgnd : ((depGraph tasks).map (fun x => x.1)).Nodup := by
    rw [depGraph_keys]; exact hnd
  rcases dispatch_ok_of_acyclic _ headD_mem _ hgnd hkn hac with ⟨l, hl⟩
  rw [show topologicalSort (depGraph tasks) = .ok l from hl]
  exact fun hcon => Except.noConfusion hcon

/-- C4 (witness): the no-cycle-error half at a concrete two-task acyclic
collection. -/
theorem c4_cycle_witness :
    topologicalSort (depGraph [⟨1, 1, []⟩, ⟨2, 1, [1]⟩])
      ≠ .error .cycleDetected ∧
    cpa [⟨1, 1, []⟩, ⟨2, 1, [1]⟩] ≠ .error .cycleDetected ∧
    scheduleTasks .minSlack [⟨1, 1, []⟩, ⟨2, 1, [1]⟩] 2
      ≠ .error .cycleDetected ∧
    longestFirstSchedule [⟨1, 1, []⟩, ⟨2, 1, [1]⟩] 2
      ≠ .error .cycleDetected ∧
    cpsSchedule [⟨1, 1, []⟩, ⟨2, 1, [1]⟩] 2 ≠ .error .cycleDetected := by
  have h := c4_cycle_detection.2.2 [⟨1, 1, []⟩, ⟨2, 1, [1]⟩] (by decide)
    (by decide) (acyclic_of_lt _ (by decide))
  exact ⟨h.1, h.2.1, h.2.2.1 .minSlack 2, h.2.2.2.1 2, h.2.2.2.2 2⟩

end Sched
